import Mathlib

set_option maxHeartbeats 1000000

/-!
# Shallow embedding of the AnswerLense document-analysis pipeline

Lean models of the pure computational cores of the pipeline:

* `AIProc.chunkText` — `chunkText` of `src/server/utils/aiProcessor.js`
  (the boundary-aware text chunker);
* text cleaning, OCR confidence, retry, batch OCR, upload validation and
  AI-response parsing follow in later sections.

Strings are modelled as `List Char`.  JavaScript string concatenation is
list append, `.length` is `List.length`, `substring` is `take`/`drop`.
-/

namespace AnswerLense

/-- The JavaScript regex `\s` whitespace class (ASCII part; all inputs
considered in the theorems are ASCII, so the Unicode space classes that
`\s` also matches are not modelled). -/
def isWs (c : Char) : Bool :=
  c = ' ' || c = '\t' || c = '\n' || c = '\r' || c = '\x0b' || c = '\x0c'

/-- The non-whitespace content of a string: the text with every whitespace
character removed.  Used to state "reconstructs content up to whitespace". -/
def nonWs (l : List Char) : List Char :=
  l.filter (fun c => !(isWs c))

namespace AIProc

/-- The character class of the sentence-split regex `[.!?]+` in
`AIProcessor.chunkText` (`src/server/utils/aiProcessor.js`). -/
def isSentencePunct (c : Char) : Bool :=
  c = '.' || c = '!' || c = '?'

/-- `paragraph.split(/[.!?]+/)`: the pieces between maximal runs of
sentence punctuation.  `inRun` records whether the previous character was
part of a punctuation run (a run of several punctuation characters is a
single separator). -/
def splitSentencesGo : Bool → List Char → List Char → List (List Char)
  | _, acc, [] => [acc.reverse]
  | inRun, acc, c :: r =>
    if isSentencePunct c then
      if inRun then splitSentencesGo true acc r
      else acc.reverse :: splitSentencesGo true [] r
    else splitSentencesGo false (c :: acc) r

/-- `paragraph.split(/[.!?]+/)`. -/
def splitSentences (l : List Char) : List (List Char) :=
  splitSentencesGo false [] l

/-- Index of the last newline in a list, if any. -/
def lastNlIdx : List Char → Option Nat
  | [] => none
  | c :: r =>
    match lastNlIdx r with
    | some p => some (p + 1)
    | none => if c = '\n' then some 0 else none

/-- Attempt to match the separator regex `/\n\s*\n/` at a position whose
character is a newline; `r` is the rest of the input after that newline.
With backtracking, `\s*` consumes the whitespace run greedily and gives
back until the final `\n` can match, so the match ends at the **last**
newline of the whitespace run following the initial one.  Returns the
remainder of the input after the matched separator, or `none` if the
regex does not match here. -/
def paraSepTail (r : List Char) : Option (List Char) :=
  match lastNlIdx (r.takeWhile isWs) with
  | some p => some (r.drop (p + 1))
  | none => none

/-- `text.split(/\n\s*\n/)`, via a fuelled left-to-right scan (the fuel is
only a termination device; `splitParagraphs` supplies enough of it that
the fallback first branch is never reached). -/
def splitParagraphsGo : Nat → List Char → List Char → List (List Char)
  | 0, acc, l => [acc.reverse ++ l]
  | _ + 1, acc, [] => [acc.reverse]
  | fuel + 1, acc, c :: r =>
    if c = '\n' then
      match paraSepTail r with
      | some rest => acc.reverse :: splitParagraphsGo fuel [] rest
      | none => splitParagraphsGo fuel (c :: acc) r
    else splitParagraphsGo fuel (c :: acc) r

/-- `text.split(/\n\s*\n/)` — the paragraph split of `chunkText`. -/
def splitParagraphs (l : List Char) : List (List Char) :=
  splitParagraphsGo l.length [] l

/-- The inner sentence loop of `chunkText`
(`src/server/utils/aiProcessor.js`, lines 103–119): greedily accumulate
sentences into `sChunk`, joining with `'. '`; when adding the next
sentence would overflow, close the chunk, and force-slice a sentence that
alone exceeds the bound (`substring(0, maxChunkLength)` /
`substring(maxChunkLength)`).  Note that the two-character `'. '` joiner
is **not** counted by the overflow test, which compares
`(sentenceChunk + sentence).length` only. -/
def chunkSentenceLoop (maxLen : Nat) :
    List (List Char) → List (List Char) → List Char →
    List (List Char) × List Char
  | [], chunks, sChunk => (chunks, sChunk)
  | s :: ss, chunks, sChunk =>
    if (sChunk ++ s).length ≤ maxLen then
      chunkSentenceLoop maxLen ss chunks
        (if sChunk.isEmpty then s else sChunk ++ ('.' :: ' ' :: s))
    else if sChunk.isEmpty then
      chunkSentenceLoop maxLen ss (chunks ++ [s.take maxLen]) (s.drop maxLen)
    else
      chunkSentenceLoop maxLen ss (chunks ++ [sChunk]) s

/-- The outer paragraph loop of `chunkText`
(`src/server/utils/aiProcessor.js`, lines 94–126): greedily accumulate
paragraphs into the current chunk, joining with `'\n\n'` (again uncounted
by the overflow test); when the next paragraph would overflow, either
close the current chunk and carry the paragraph, or — only when the
current chunk is empty — split the paragraph at sentence granularity. -/
def chunkParagraphLoop (maxLen : Nat) :
    List (List Char) → List (List Char) → List Char →
    List (List Char) × List Char
  | [], chunks, cur => (chunks, cur)
  | p :: ps, chunks, cur =>
    if (cur ++ p).length ≤ maxLen then
      chunkParagraphLoop maxLen ps chunks
        (if cur.isEmpty then p else cur ++ ('\n' :: '\n' :: p))
    else if cur.isEmpty then
      let r := chunkSentenceLoop maxLen (splitSentences p) chunks []
      chunkParagraphLoop maxLen ps r.1 r.2
    else
      chunkParagraphLoop maxLen ps (chunks ++ [cur]) p

/-- `AIProcessor.chunkText` (`src/server/utils/aiProcessor.js`, lines
82–134).  The source fixes `maxChunkLength = 3000` inside the method
(8000 in the sibling implementation); per the spec this constant is the
configured bound, so it is taken as a parameter here. -/
def chunkText (maxChunkLength : Nat) (text : List Char) : List (List Char) :=
  if text.length ≤ maxChunkLength then [text]
  else if (chunkParagraphLoop maxChunkLength (splitParagraphs text) [] []).2.isEmpty then
    (chunkParagraphLoop maxChunkLength (splitParagraphs text) [] []).1
  else
    (chunkParagraphLoop maxChunkLength (splitParagraphs text) [] []).1 ++
      [(chunkParagraphLoop maxChunkLength (splitParagraphs text) [] []).2]

end AIProc

/-- `text.trim()`: strip whitespace from both ends. -/
def jsTrim (l : List Char) : List Char :=
  ((l.dropWhile isWs).reverse.dropWhile isWs).reverse

/-- `replace(/\s+/g, ' ')`: collapse every maximal whitespace run to a single
space.  `prevWs` records whether the previous character was part of a run
already replaced. -/
def collapseWsGo : Bool → List Char → List Char
  | _, [] => []
  | prevWs, c :: r =>
    if isWs c then
      if prevWs then collapseWsGo true r
      else ' ' :: collapseWsGo true r
    else c :: collapseWsGo false r

/-- `replace(/\s+/g, ' ')`. -/
def collapseWs (l : List Char) : List Char :=
  collapseWsGo false l

/-- One pass of a JavaScript global regex replace, modelled as a
left-to-right scan.  `m` inspects the current suffix: on `some (emit, rest)`
the matched prefix is replaced by `emit` and scanning resumes at `rest` (the
replacement is never rescanned, matching `lastIndex` semantics); on `none`
the head character is kept.  The fuel argument only drives termination; it
is always instantiated with the input length, which suffices because every
matcher consumes at least one character. -/
def scanReplace (m : List Char → Option (List Char × List Char)) :
    Nat → List Char → List Char
  | 0, l => l
  | _ + 1, [] => []
  | fuel + 1, c :: r =>
    match m (c :: r) with
    | some (emit, rest) => emit ++ scanReplace m fuel rest
    | none => c :: scanReplace m fuel r

/-- `scanReplace` with its standard fuel. -/
def runReplace (m : List Char → Option (List Char × List Char))
    (l : List Char) : List Char :=
  scanReplace m l.length l

/-- Case-insensitive literal prefix match: `pat` is given in lower case;
returns the remainder after the matched prefix. -/
def ciPrefixDrop (pat l : List Char) : Option (List Char) :=
  if (l.take pat.length).map Char.toLower = pat then some (l.drop pat.length)
  else none

/-- Split at every newline (keeping empty pieces), for the `m`-flag line
model of `^...$` regexes. -/
def splitOnNlGo : List Char → List Char → List (List Char)
  | acc, [] => [acc.reverse]
  | acc, c :: r =>
    if c = '\n' then acc.reverse :: splitOnNlGo [] r
    else splitOnNlGo (c :: acc) r

/-- Split a string into its newline-separated lines. -/
def splitOnNl (l : List Char) : List (List Char) :=
  splitOnNlGo [] l

namespace OCRP10

/-- Matcher for `/Page \d+/gi` in `OCRProcessor.cleanText`
(`src/unnamed/part_010`): case-insensitive `Page`, a literal space, then a
maximal run of at least one digit.  The match is deleted. -/
def pageMatcher (l : List Char) : Option (List Char × List Char) :=
  match ciPrefixDrop "page ".data l with
  | some rest =>
    match rest with
    | d :: _ =>
      if d.isDigit then some ([], rest.dropWhile Char.isDigit) else none
    | [] => none
  | none => none

/-- Matcher for `/CONFIDENTIAL|DRAFT|COPY/gi`: the alternatives are tried in
order; a case-insensitive occurrence is deleted. -/
def watermarkMatcher (l : List Char) : Option (List Char × List Char) :=
  match ciPrefixDrop "confidential".data l with
  | some r => some ([], r)
  | none =>
    match ciPrefixDrop "draft".data l with
    | some r => some ([], r)
    | none =>
      match ciPrefixDrop "copy".data l with
      | some r => some ([], r)
      | none => none

/-- A line matching `/^\d+\s*$/`: at least one digit followed by optional
whitespace to the end of the line. -/
def isStandaloneNumber (line : List Char) : Bool :=
  !(line.takeWhile Char.isDigit).isEmpty &&
    (line.dropWhile Char.isDigit).all isWs

/-- `replace(/^\d+\s*$/gm, '')`: every line that is a standalone number is
emptied (the newline separators are kept).  The `m`-flag regex is modelled
line by line; at its call site the input contains no newline (the first
cleaning rule collapsed them all), where the two readings agree. -/
def removeStandaloneNumbers (l : List Char) : List Char :=
  List.intercalate ['\n']
    ((splitOnNl l).map fun line => if isStandaloneNumber line then [] else line)

/-- Matcher for `/\n{3,}/g → '\n\n'`: a maximal run of at least three
newlines collapses to two. -/
def blankRunMatcher (l : List Char) : Option (List Char × List Char) :=
  match l with
  | '\n' :: '\n' :: '\n' :: rest =>
    some (['\n', '\n'], rest.dropWhile (fun c => c == '\n'))
  | _ => none

/-- Matcher for `/([.!?])\s*\n+\s*([A-Z])/g → '$1 $2'`: sentence punctuation,
then a whitespace run containing at least one newline, then an upper-case
letter; the whitespace run is replaced by one space. -/
def sentenceJoinMatcher (l : List Char) : Option (List Char × List Char) :=
  match l with
  | c :: rest =>
    if AIProc.isSentencePunct c then
      if (rest.takeWhile isWs).any (fun x => x == '\n') then
        match rest.drop (rest.takeWhile isWs).length with
        | u :: rest2 => if u.isUpper then some ([c, ' ', u], rest2) else none
        | [] => none
      else none
    else none
  | [] => none

/-- `OCRProcessor.cleanText` (`src/unnamed/part_010`, lines 121–140): the
chain of cleaning replaces, in source order, ending with `trim()`.  The
`!text || typeof text !== 'string'` guard returns `''` and is outside this
model (inputs are strings). -/
def cleanText (text : List Char) : List Char :=
  jsTrim
    (runReplace sentenceJoinMatcher
      (runReplace blankRunMatcher
        (runReplace watermarkMatcher
          (removeStandaloneNumbers
            (runReplace pageMatcher (collapseWs text))))))

end OCRP10

namespace OCRServer

/-- `replace(/[^\x20-\x7E\n\r\t]/g, '')`: keep printable ASCII plus newline,
carriage return and tab. -/
def stripNonPrintable (l : List Char) : List Char :=
  l.filter fun c =>
    (0x20 ≤ c.toNat && c.toNat ≤ 0x7E) || c = '\n' || c = '\r' || c = '\t'

/-- Matcher for `/([A-Za-z])0([A-Za-z])/g → '$1O$2'` (zero between letters
becomes the letter O); the whole three-character match is consumed. -/
def zeroMatcher (l : List Char) : Option (List Char × List Char) :=
  match l with
  | a :: '0' :: b :: rest =>
    if a.isAlpha && b.isAlpha then some ([a, 'O', b], rest) else none
  | _ => none

/-- Matcher for `/([A-Za-z])1([A-Za-z])/g → '$1I$2'` (one between letters
becomes the letter I). -/
def oneMatcher (l : List Char) : Option (List Char × List Char) :=
  match l with
  | a :: '1' :: b :: rest =>
    if a.isAlpha && b.isAlpha then some ([a, 'I', b], rest) else none
  | _ => none

/-- Matcher for `replace(/\r\n/g, '\n')`. -/
def crlfMatcher (l : List Char) : Option (List Char × List Char) :=
  match l with
  | '\r' :: '\n' :: rest => some (['\n'], rest)
  | _ => none

/-- Matcher for `replace(/\r/g, '\n')`. -/
def crMatcher (l : List Char) : Option (List Char × List Char) :=
  match l with
  | '\r' :: rest => some (['\n'], rest)
  | _ => none

/-- `OCRProcessor.cleanExtractedText` (`src/server/utils/ocrProcessor.js`,
lines 144–165): whitespace collapse, non-printable strip, the two
letter-flanked digit corrections, line-break normalisation and `trim()`.
The `if (!rawText) return ''` guard is outside this model. -/
def cleanExtractedText (rawText : List Char) : List Char :=
  jsTrim
    (runReplace crMatcher
      (runReplace crlfMatcher
        (runReplace oneMatcher
          (runReplace zeroMatcher
            (stripNonPrintable (collapseWs rawText))))))

end OCRServer

/-- Clamp a rational into `[0,1]` — used by the spec-side definition of the
OCR confidence. -/
def clamp01 (q : ℚ) : ℚ := min 1 (max 0 q)

namespace OCRServer

/-- A Tesseract word record, as consumed by
`OCRProcessor.calculateOverallConfidence`
(`src/server/utils/ocrProcessor.js`, lines 127–137).  Tesseract reports
per-word confidences on a 0–100 scale; JavaScript numbers are modelled as
rationals.  Only the fields the confidence computation reads are kept. -/
structure TWord where
  text : List Char
  confidence : ℚ
deriving DecidableEq

/-- The `tesseractData` argument: `words` may be absent, and its entries may
be `null` (the source filters `word => word && word.confidence > 0`). -/
structure TessData where
  words : Option (List (Option TWord))
deriving DecidableEq

/-- The filter `word => word && word.confidence > 0`: the word is present
(non-null) and its confidence is strictly positive. -/
def validTessWord : Option TWord → Bool
  | none => false
  | some w => 0 < w.confidence

/-- `word.confidence || 0` — the confidence of a possibly-null word entry. -/
def confOf : Option TWord → ℚ
  | none => 0
  | some w => w.confidence

/-- All word entries of the input (empty when `tesseractData` or its
`words` field is absent) — used only to state hypotheses. -/
def tessWords : Option TessData → List (Option TWord)
  | none => []
  | some d => d.words.getD []

/-- `OCRProcessor.calculateOverallConfidence`
(`src/server/utils/ocrProcessor.js`, lines 127–137): guard the absent /
empty cases to 0; otherwise average the confidences of the valid words
(`reduce((sum, word) => sum + (word.confidence || 0), 0) / length`) and
scale from the 0–100 range to 0–1. -/
def calculateOverallConfidence : Option TessData → ℚ
  | none => 0
  | some d =>
    match d.words with
    | none => 0
    | some ws =>
      if ws.length = 0 then 0
      else if (ws.filter validTessWord).length = 0 then 0
      else
        (((ws.filter validTessWord).map confOf).sum /
            ((ws.filter validTessWord).length : ℚ)) / 100

/-- The spec-side definition of the overall confidence, written from the
spec's words for comparison with the source's `calculateOverallConfidence`:
"confidence is the mean of valid per-token confidences, clamped into
[0,1]; an empty or all-invalid-token input yields confidence 0". -/
def specOverallConfidence : Option TessData → ℚ
  | none => 0
  | some d =>
    match d.words with
    | none => 0
    | some ws =>
      if (ws.filter validTessWord).length = 0 then 0
      else
        clamp01
          ((((ws.filter validTessWord).map confOf).sum /
              ((ws.filter validTessWord).length : ℚ)) / 100)

end OCRServer

/-- `true` exactly on `Except.ok` — used to state success/failure of the
fallible operations. -/
def exceptIsOk {α β : Type} : Except α β → Bool
  | .ok _ => true
  | .error _ => false

namespace OCRP10

/-- The effective outcome of attempt `a` of `performOCRWithRetry`
(`src/unnamed/part_010`, lines 80–114): the recognition engine's outcome for
that attempt is supplied as an oracle `attempts` (1-based attempt numbers);
an engine rejection is a failure, and a successful result whose trimmed text
has fewer than 10 characters is converted into the thrown
`Error('OCR returned insufficient text')`. -/
def attemptOutcome (attempts : Nat → Except (List Char) (List Char))
    (a : Nat) : Except (List Char) (List Char) :=
  match attempts a with
  | .error e => .error e
  | .ok txt =>
    if (jsTrim txt).length < 10 then
      .error "OCR returned insufficient text".data
    else .ok txt

/-- The retry loop of `performOCRWithRetry`: `remaining` counts the loop
iterations left (`maxRetries - attempt + 1`), `attempt` is the 1-based
attempt number, `lastErr` the last recorded failure.  The result pairs the
final outcome (`throw lastError` after the loop) with the list of waits
performed: `setTimeout(..., 1000 * attempt)` after each failed attempt with
`attempt < maxRetries`. -/
def retryGo (attempts : Nat → Except (List Char) (List Char))
    (maxRetries : Nat) :
    Nat → Nat → Option (List Char) →
    Except (Option (List Char)) (List Char) × List Nat
  | 0, _, lastErr => (.error lastErr, [])
  | remaining + 1, attempt, _ =>
    match attemptOutcome attempts attempt with
    | .ok txt => (.ok txt, [])
    | .error e =>
      if attempt < maxRetries then
        ((retryGo attempts maxRetries remaining (attempt + 1) (some e)).1,
          1000 * attempt ::
            (retryGo attempts maxRetries remaining (attempt + 1) (some e)).2)
      else retryGo attempts maxRetries remaining (attempt + 1) (some e)

/-- `OCRProcessor.performOCRWithRetry(imageBuffer, language, maxRetries)`
(`src/unnamed/part_010`, lines 80–114); the source defaults
`maxRetries = 3`. -/
def performOCRWithRetry (attempts : Nat → Except (List Char) (List Char))
    (maxRetries : Nat) :
    Except (Option (List Char)) (List Char) × List Nat :=
  retryGo attempts maxRetries maxRetries 1 none

end OCRP10

namespace OCRP10

/-- The value object returned by one successful `processImage` call
(`src/unnamed/part_010`, lines 16–48): extracted text, Tesseract confidence
and the measured processing time. -/
structure PageRes where
  text : List Char
  confidence : ℚ
  processingTime : Nat
deriving DecidableEq

/-- One entry of `pageResults` in `processMultipleImages`: the page result
plus its 1-based page number. -/
structure PageOut where
  pageNumber : Nat
  text : List Char
  confidence : ℚ
  processingTime : Nat
deriving DecidableEq

/-- The combined result of `processMultipleImages` (the wall-clock
`processingTime` field is not modelled). -/
structure MultiOCRResult where
  text : List Char
  cleanedText : List Char
  confidence : ℚ
  pageCount : Nat
  pageResults : List PageOut
deriving DecidableEq

/-- Slice a list into consecutive groups of `concurrencyLimit = 3`
(`src/unnamed/part_010`, lines 157–162).  Fuelled; the wrapper supplies the
list length, which suffices. -/
def chunksOf3Go {α : Type} : Nat → List α → List (List α)
  | 0, _ => []
  | fuel + 1, l => if l.isEmpty then [] else l.take 3 :: chunksOf3Go fuel (l.drop 3)

/-- `for (let i = 0; i < imageBuffers.length; i += concurrencyLimit)`. -/
def chunksOf3 {α : Type} (l : List α) : List (List α) :=
  chunksOf3Go l.length l

/-- `Promise.all` over one group of page promises: the whole group fails
with the first rejection (in list order), otherwise yields all results. -/
def allGroup : List (Except (List Char) PageRes) →
    Except (List Char) (List PageRes)
  | [] => .ok []
  | .error e :: _ => .error e
  | .ok r :: rest =>
    match allGroup rest with
    | .error e => .error e
    | .ok rs => .ok (r :: rs)

/-- Attach page numbers `results.length + index + 1` to a group's results
(`src/unnamed/part_010`, line 166). -/
def enrichGo : Nat → List PageRes → List PageOut
  | _, [] => []
  | n, r :: rs => ⟨n + 1, r.text, r.confidence, r.processingTime⟩ :: enrichGo (n + 1) rs

/-- The sequential loop over groups: each group is awaited with
`Promise.all`; a rejection propagates (the `catch` block of
`processMultipleImages` rethrows). -/
def gatherGo : List PageOut → List (List (Except (List Char) PageRes)) →
    Except (List Char) (List PageOut)
  | acc, [] => .ok acc
  | acc, g :: gs =>
    match allGroup g with
    | .error e => .error e
    | .ok rs => gatherGo (acc ++ enrichGo acc.length rs) gs

/-- `OCRProcessor.processMultipleImages` (`src/unnamed/part_010`, lines
148–207): each page's `processImage` outcome (after its internal retries)
is supplied as an element of `pages`; pages are processed in groups of 3
via `Promise.all`; on success the texts are joined with a blank line,
cleaned, and the mean confidence and page count are reported.  Any page
failure rejects the whole batch.  (For an empty batch the source divides
0 by 0, producing `NaN`; in `ℚ` this is 0.) -/
def processMultipleImages (pages : List (Except (List Char) PageRes)) :
    Except (List Char) MultiOCRResult :=
  match gatherGo [] (chunksOf3 pages) with
  | .error e => .error e
  | .ok results =>
    .ok
      { text := List.intercalate ('\n' :: '\n' :: []) (results.map PageOut.text)
        cleanedText :=
          cleanText (List.intercalate ('\n' :: '\n' :: []) (results.map PageOut.text))
        confidence := (results.map PageOut.confidence).sum / (results.length : ℚ)
        pageCount := results.length
        pageResults := results }

end OCRP10

namespace FileProc

/-- The multer file object as consumed by `FileProcessor.validateFile`
(`src/unnamed/part_008`, lines 102–163): declared name, byte size, declared
MIME type, and the file's bytes (the magic-number check reads the leading
ones; `Buffer.alloc` zero-fills, so a byte beyond the end of the file reads
as 0).  The model corresponds to a stored upload (`file.path` present and
readable), which is how the upload route invokes validation. -/
structure JFile where
  originalname : List Char
  size : Nat
  mimetype : List Char
  bytes : List Nat
deriving DecidableEq

/-- The `magicNumbers` signature table (`src/unnamed/part_008`, lines
33–40). -/
def magicNumbers (mime : List Char) : Option (List Nat) :=
  if mime = "image/jpeg".data then some [0xFF, 0xD8, 0xFF]
  else if mime = "image/png".data then some [0x89, 0x50, 0x4E, 0x47]
  else if mime = "image/bmp".data then some [0x42, 0x4D]
  else if mime = "image/tiff".data then some [0x49, 0x49, 0x2A, 0x00]
  else if mime = "image/webp".data then some [0x52, 0x49, 0x46, 0x46]
  else if mime = "application/pdf".data then some [0x25, 0x50, 0x44, 0x46]
  else none

/-- Read byte `i` of the buffer; positions beyond the end read as the
`Buffer.alloc` zero fill. -/
def byteAt (bytes : List Nat) (i : Nat) : Nat :=
  bytes.getD i 0

/-- `FileProcessor.validateMagicNumbers` (`src/unnamed/part_008`, lines
64–95): `true` when the declared MIME type has no known signature; otherwise
the leading bytes must equal the signature, and for WebP additionally bytes
8–11 must spell `WEBP`. -/
def validateMagicNumbers (bytes : List Nat) (mime : List Char) : Bool :=
  match magicNumbers mime with
  | none => true
  | some sig =>
    if mime = "image/webp".data then
      ((List.range sig.length).map (byteAt bytes) == sig) &&
        ((List.range 4).map (fun i => byteAt bytes (8 + i)) ==
          [0x57, 0x45, 0x42, 0x50])
    else (List.range sig.length).map (byteAt bytes) == sig

/-- Index of the last dot in a name, if any. -/
def lastDotIdx : List Char → Option Nat
  | [] => none
  | c :: r =>
    match lastDotIdx r with
    | some p => some (p + 1)
    | none => if c = '.' then some 0 else none

/-- `path.extname(name).toLowerCase()`: the lower-cased extension from the
last dot on; empty for a dotless name or a leading-dot name.  (Names with
path separators are rejected independently by the suspicious-name check.) -/
def extnameLower (name : List Char) : List Char :=
  match lastDotIdx name with
  | none => []
  | some 0 => []
  | some i => (name.drop i).map Char.toLower

/-- The `allowedExtensions` list (`src/unnamed/part_008`, line 30). -/
def allowedExtensions : List (List Char) :=
  [".jpg".data, ".jpeg".data, ".png".data, ".bmp".data, ".tiff".data,
    ".tif".data, ".webp".data, ".pdf".data]

/-- The `allowedMimeTypes` list (`src/unnamed/part_008`, lines 21–29). -/
def allowedMimeTypes : List (List Char) :=
  ["image/jpeg".data, "image/jpg".data, "image/png".data, "image/bmp".data,
    "image/tiff".data, "image/webp".data, "application/pdf".data]

/-- The dangerous executable extensions of `isSuspiciousFileName`. -/
def dangerousExts : List (List Char) :=
  [".exe".data, ".bat".data, ".cmd".data, ".com".data, ".scr".data,
    ".sh".data, ".js".data, ".php".data, ".asp".data]

/-- `filename.includes('..')`. -/
def hasDotDot : List Char → Bool
  | '.' :: '.' :: _ => true
  | _ :: r => hasDotDot r
  | [] => false

/-- `FileProcessor.isSuspiciousFileName` (`src/unnamed/part_008`, lines
170–189): path traversal, separators, dangerous executable extensions, or
control characters (`/[\x00-\x1F\x7F]/`). -/
def isSuspiciousFileName (name : List Char) : Bool :=
  hasDotDot name || name.any (fun c => c == '/') ||
    name.any (fun c => c == '\\') ||
    dangerousExts.contains (extnameLower name) ||
    name.any (fun c => c.toNat ≤ 0x1F || c.toNat == 0x7F)

/-- The accumulating validation record (`fileInfo` is flattened into the
`info*` fields). -/
structure ValidationResult where
  isValid : Bool
  errors : List (List Char)
  warnings : List (List Char)
  infoName : List Char
  infoSize : Nat
  infoMime : List Char
  infoExt : List Char
deriving DecidableEq

/-- One `validation.errors.push(...)` with its `validation.isValid = false`,
guarded by the check's condition. -/
def addError (msg : List Char) (cond : Bool) (v : ValidationResult) :
    ValidationResult :=
  if cond then { v with isValid := false, errors := v.errors ++ [msg] } else v

/-- One `validation.warnings.push(...)`, guarded by its condition. -/
def addWarning (msg : List Char) (cond : Bool) (v : ValidationResult) :
    ValidationResult :=
  if cond then { v with warnings := v.warnings ++ [msg] } else v

/-- `FileProcessor.validateFile` (`src/unnamed/part_008`, lines 102–163):
the five error checks run in order and accumulate (size, extension, MIME
type, suspicious name, magic numbers), then the two size warnings.  The
parenthesised dynamic parts of the messages (formatted sizes, allow-lists)
and the quotes around interpolated values are elided from the message
texts. -/
def validateFile (maxFileSize : Nat) (file : JFile) : ValidationResult :=
  addWarning "Large file may take longer to process".data
    (decide (file.size > 10485760))
    (addWarning "File is very small, which may indicate poor quality".data
      (decide (file.size < 1024))
      (addError "File signature does not match the declared file type".data
        (!(validateMagicNumbers file.bytes file.mimetype))
        (addError "File name contains suspicious characters".data
          (isSuspiciousFileName file.originalname)
          (addError ("File type ".data ++ file.mimetype ++
              " is not allowed".data)
            (!(allowedMimeTypes.contains file.mimetype))
            (addError ("File extension ".data ++
                extnameLower file.originalname ++ " is not allowed".data)
              (!(allowedExtensions.contains (extnameLower file.originalname)))
              (addError "File size exceeds maximum allowed size".data
                (decide (file.size > maxFileSize))
                ⟨true, [], [], file.originalname, file.size, file.mimetype,
                  extnameLower file.originalname⟩))))))

end FileProc

namespace Gemini

/-- A suggestion object of the Gemini `AIProcessor` (`src/unnamed/part_009`,
first file): `category`, `priority`, `suggestion` text and optional
`location`. -/
structure GSuggestion where
  category : List Char
  priority : List Char
  suggestion : List Char
  location : List Char
deriving DecidableEq

/-- The deduplication key
`` `${suggestion.category}-${suggestion.suggestion.substring(0, 50)}` ``
(`src/unnamed/part_009`, line 243): a single string concatenation, not a
pair. -/
def suggestionKey (s : GSuggestion) : List Char :=
  s.category ++ ('-' :: s.suggestion.take 50)

/-- The `Set`-based filter of `deduplicateSuggestions`: keep an element iff
its key has not been seen among the earlier elements. -/
def dedupGo (seen : List (List Char)) : List GSuggestion → List GSuggestion
  | [] => []
  | s :: rest =>
    if suggestionKey s ∈ seen then dedupGo seen rest
    else s :: dedupGo (suggestionKey s :: seen) rest

/-- `AIProcessor.deduplicateSuggestions` (`src/unnamed/part_009`, lines
240–250). -/
def deduplicateSuggestions (l : List GSuggestion) : List GSuggestion :=
  dedupGo [] l

/-- A parsed single-chunk analysis: `analysis` text plus suggestions. -/
structure ParsedAnalysis where
  analysis : List Char
  suggestions : List GSuggestion
deriving DecidableEq

/-- One entry of the `chunkAnalyses` array built by
`analyzeMultipleChunks` (`src/unnamed/part_009`, lines 91–117); failed
chunks carry an `error` and no `chunkText`. -/
structure ChunkAnalysis where
  analysis : List Char
  suggestions : List GSuggestion
  chunkIndex : Nat
  chunkText : Option (List Char)
  error : Option (List Char)
deriving DecidableEq

/-- `` `Chunk ${i + 1} analysis failed` ``. -/
def chunkFailMsg (n : Nat) : List Char :=
  "Chunk ".data ++ (Nat.repr n).data ++ " analysis failed".data

/-- The loop of `analyzeMultipleChunks`: each chunk's
`analyzeSingleChunk` outcome is supplied by the oracle (indexed by chunk
position); a rejection is caught and recorded as a failed entry. -/
def buildChunkAnalyses (oracle : Nat → Except (List Char) ParsedAnalysis) :
    Nat → List (List Char) → List ChunkAnalysis
  | _, [] => []
  | i, c :: cs =>
    (match oracle i with
     | .ok r =>
       ⟨r.analysis, r.suggestions, i, some (c.take 100 ++ "...".data), none⟩
     | .error e => ⟨chunkFailMsg (i + 1), [], i, none, some e⟩) ::
      buildChunkAnalyses oracle (i + 1) cs

/-- The all-chunks-failed fallback analysis text of
`combineChunkAnalyses`. -/
def unableMsg : List Char :=
  "Unable to analyze document due to processing errors.".data

/-- `` `Section ${i + 1}: ${a.analysis}` `` labels, numbered over the
**filtered** (successful) analyses. -/
def sectionLabels : Nat → List ChunkAnalysis → List (List Char)
  | _, [] => []
  | i, a :: rest =>
    ("Section ".data ++ (Nat.repr (i + 1)).data ++ ": ".data ++ a.analysis) ::
      sectionLabels (i + 1) rest

/-- `AIProcessor.combineChunkAnalyses` (`src/unnamed/part_009`, lines
210–233): drop the failed entries; with none left return the fixed fallback
(a plain value, not a failure); otherwise join the section-labelled
analyses and deduplicate the union of the suggestions. -/
def combineChunkAnalyses (chunkAnalyses : List ChunkAnalysis) : ParsedAnalysis :=
  if ((chunkAnalyses.filter fun a => a.error.isNone).length = 0) then
    ⟨unableMsg, []⟩
  else
    ⟨"Document Analysis (".data ++
        (Nat.repr (chunkAnalyses.filter fun a => a.error.isNone).length).data ++
        " sections):\n\n".data ++
        List.intercalate "\n\n".data
          (sectionLabels 0 (chunkAnalyses.filter fun a => a.error.isNone)),
      deduplicateSuggestions
        (((chunkAnalyses.filter fun a => a.error.isNone).map
          fun a => a.suggestions).flatten)⟩

/-- The result record of `analyzeText` (`src/unnamed/part_009`, lines
18–62), restricted to the fields the claims concern. -/
structure AnalyzeTextResult where
  analysis : List Char
  suggestions : List GSuggestion
  success : Bool
deriving DecidableEq

/-- The multi-chunk path of `AIProcessor.analyzeText`: per-chunk failures
are caught inside the loop, `combineChunkAnalyses` is a total value
computation, so the outer `catch` (which would set `success: false`) is
never reached on this path and the result carries `success: true`. -/
def analyzeTextMulti (chunks : List (List Char))
    (oracle : Nat → Except (List Char) ParsedAnalysis) : AnalyzeTextResult :=
  ⟨(combineChunkAnalyses (buildChunkAnalyses oracle 0 chunks)).analysis,
    (combineChunkAnalyses (buildChunkAnalyses oracle 0 chunks)).suggestions,
    true⟩

/-- The number of chunk positions (from index `i`) whose analysis
succeeds. -/
def okCountFrom (oracle : Nat → Except (List Char) ParsedAnalysis) :
    Nat → List (List Char) → Nat
  | _, [] => 0
  | i, _ :: cs =>
    (if exceptIsOk (oracle i) then 1 else 0) + okCountFrom oracle (i + 1) cs

end Gemini

/-- The single-quote character (written by code point to keep string
scanning simple). -/
def sq : Char := Char.ofNat 39

/-- The double-quote character. -/
def dq : Char := Char.ofNat 34

/-- The opening curly brace. -/
def lbrace : Char := Char.ofNat 0x7b

/-- The closing curly brace. -/
def rbrace : Char := Char.ofNat 0x7d

/-- A JavaScript JSON value, as produced by `JSON.parse`. -/
inductive JsValue : Type where
  | null : JsValue
  | bool (b : Bool) : JsValue
  | num (q : ℚ) : JsValue
  | str (s : List Char) : JsValue
  | arr (items : List JsValue) : JsValue
  | obj (fields : List (List Char × JsValue)) : JsValue

/-- JSON whitespace (space, tab, newline, carriage return — narrower than
the regex class `\s`). -/
def isJsonWs (c : Char) : Bool :=
  c = ' ' || c = '\t' || c = '\n' || c = '\r'

/-- Skip JSON whitespace. -/
def skipJsonWs (l : List Char) : List Char :=
  l.dropWhile isJsonWs

/-- Value of one hexadecimal digit. -/
def hexVal (c : Char) : Option Nat :=
  if c.isDigit then some (c.toNat - 48)
  else if 'a' ≤ c && c ≤ 'f' then some (c.toNat - 87)
  else if 'A' ≤ c && c ≤ 'F' then some (c.toNat - 55)
  else none

/-- Parse the body of a JSON string (after the opening quote): returns the
decoded characters and the input after the closing quote.  Handles the JSON
escapes including `\uXXXX` (code points outside `Char`'s range fall back to
`Char.ofNat`'s default, a divergence that no theorem depends on). -/
def parseStringBody : Nat → List Char → Except (List Char) (List Char × List Char)
  | 0, _ => .error "out of fuel".data
  | _ + 1, [] => .error "unterminated string".data
  | fuel + 1, c :: r =>
    if c = dq then .ok ([], r)
    else if c = '\\' then
      match r with
      | [] => .error "unterminated escape".data
      | e :: r2 =>
        let cont := fun (ch : Char) (rest : List Char) =>
          (parseStringBody fuel rest).map fun p => (ch :: p.1, p.2)
        if e = dq then cont dq r2
        else if e = '\\' then cont '\\' r2
        else if e = '/' then cont '/' r2
        else if e = 'b' then cont '\x08' r2
        else if e = 'f' then cont '\x0c' r2
        else if e = 'n' then cont '\n' r2
        else if e = 'r' then cont '\x0d' r2
        else if e = 't' then cont '\t' r2
        else if e = 'u' then
          match r2 with
          | h1 :: h2 :: h3 :: h4 :: r3 =>
            match hexVal h1, hexVal h2, hexVal h3, hexVal h4 with
            | some a, some b, some c2, some d =>
              cont (Char.ofNat (((a * 16 + b) * 16 + c2) * 16 + d)) r3
            | _, _, _, _ => .error "invalid unicode escape".data
          | _ => .error "invalid unicode escape".data
        else .error "invalid escape".data
    else if c.toNat < 0x20 then .error "control character in string".data
    else (parseStringBody fuel r).map fun p => (c :: p.1, p.2)

/-- Decimal value of a digit run. -/
def digitsVal (ds : List Char) : Nat :=
  ds.foldl (fun acc c => acc * 10 + (c.toNat - 48)) 0

/-- Parse an optional JSON fraction part. -/
def parseFrac : List Char → Except (List Char) (List Char × List Char)
  | '.' :: r =>
    if (r.takeWhile Char.isDigit).isEmpty then
      .error "expected digits after decimal point".data
    else .ok (r.takeWhile Char.isDigit, r.drop (r.takeWhile Char.isDigit).length)
  | l => .ok ([], l)

/-- Parse an optional JSON exponent part: (exponent is negative, digits,
rest). -/
def parseExp : List Char → Except (List Char) (Bool × List Char × List Char)
  | [] => .ok (false, [], [])
  | c :: r =>
    if c = 'e' || c = 'E' then
      match r with
      | '-' :: r2 =>
        if (r2.takeWhile Char.isDigit).isEmpty then
          .error "expected exponent digits".data
        else .ok (true, r2.takeWhile Char.isDigit,
          r2.drop (r2.takeWhile Char.isDigit).length)
      | '+' :: r2 =>
        if (r2.takeWhile Char.isDigit).isEmpty then
          .error "expected exponent digits".data
        else .ok (false, r2.takeWhile Char.isDigit,
          r2.drop (r2.takeWhile Char.isDigit).length)
      | _ =>
        if (r.takeWhile Char.isDigit).isEmpty then
          .error "expected exponent digits".data
        else .ok (false, r.takeWhile Char.isDigit,
          r.drop (r.takeWhile Char.isDigit).length)
    else .ok (false, [], c :: r)

/-- Parse a JSON number without a leading sign.  JSON forbids leading
zeros. -/
def parseUnsignedNumber (l : List Char) : Except (List Char) (ℚ × List Char) :=
  let ds := l.takeWhile Char.isDigit
  if ds.isEmpty then .error "invalid number".data
  else if 2 ≤ ds.length && (ds.head? == some '0') then
    .error "leading zero".data
  else
    match parseFrac (l.drop ds.length) with
    | .error e => .error e
    | .ok (fds, l2) =>
      match parseExp l2 with
      | .error e => .error e
      | .ok (negE, eds, l3) =>
        let mant : ℚ := (digitsVal ds : ℚ) +
          (digitsVal fds : ℚ) / ((10 : ℚ) ^ fds.length)
        let expo : ℚ := if negE then 1 / ((10 : ℚ) ^ digitsVal eds)
          else (10 : ℚ) ^ digitsVal eds
        .ok (mant * expo, l3)

/-- Parse a JSON number. -/
def parseNumber : List Char → Except (List Char) (ℚ × List Char)
  | '-' :: r => (parseUnsignedNumber r).map fun p => (-p.1, p.2)
  | l => parseUnsignedNumber l

/-- Match an exact literal continuation (`rue`, `alse`, `ull`). -/
def litTail (pat l : List Char) : Option (List Char) :=
  if l.take pat.length = pat then some (l.drop pat.length) else none

mutual

/-- Recursive-descent `JSON.parse` value parser.  The fuel only drives
termination; `jsonParse` supplies more than enough.  None of the theorems
depend on the exact accepted language — only on success versus failure being
handled — but the grammar follows JSON. -/
def parseValue : Nat → List Char → Except (List Char) (JsValue × List Char)
  | 0, _ => .error "out of fuel".data
  | fuel + 1, l =>
    match skipJsonWs l with
    | [] => .error "unexpected end of input".data
    | c :: r =>
      if c = dq then
        (parseStringBody (r.length + 1) r).map fun p => (.str p.1, p.2)
      else if c = lbrace then
        match skipJsonWs r with
        | c2 :: r2 =>
          if c2 = rbrace then .ok (.obj [], r2)
          else parseObjFields fuel (c2 :: r2) []
        | [] => .error "unterminated object".data
      else if c = '[' then
        match skipJsonWs r with
        | ']' :: r2 => .ok (.arr [], r2)
        | l2 => parseArrItems fuel l2 []
      else if c = 't' then
        match litTail "rue".data r with
        | some rest => .ok (.bool true, rest)
        | none => .error "invalid literal".data
      else if c = 'f' then
        match litTail "alse".data r with
        | some rest => .ok (.bool false, rest)
        | none => .error "invalid literal".data
      else if c = 'n' then
        match litTail "ull".data r with
        | some rest => .ok (.null, rest)
        | none => .error "invalid literal".data
      else (parseNumber (c :: r)).map fun p => (.num p.1, p.2)

/-- Parse the members of an object (expects a `"key": value` next). -/
def parseObjFields : Nat → List Char → List (List Char × JsValue) →
    Except (List Char) (JsValue × List Char)
  | 0, _, _ => .error "out of fuel".data
  | fuel + 1, l, acc =>
    match skipJsonWs l with
    | [] => .error "unterminated object".data
    | c :: r =>
      if c = dq then
        match parseStringBody (r.length + 1) r with
        | .error e => .error e
        | .ok (key, r2) =>
          match skipJsonWs r2 with
          | ':' :: r3 =>
            match parseValue fuel r3 with
            | .error e => .error e
            | .ok (v, r4) =>
              match skipJsonWs r4 with
              | c5 :: r5 =>
                if c5 = ',' then parseObjFields fuel r5 ((key, v) :: acc)
                else if c5 = rbrace then .ok (.obj ((key, v) :: acc).reverse, r5)
                else .error "expected comma or end of object".data
              | [] => .error "unterminated object".data
          | _ => .error "expected colon".data
      else .error "expected string key".data

/-- Parse the items of a non-empty array. -/
def parseArrItems : Nat → List Char → List JsValue →
    Except (List Char) (JsValue × List Char)
  | 0, _, _ => .error "out of fuel".data
  | fuel + 1, l, acc =>
    match parseValue fuel l with
    | .error e => .error e
    | .ok (v, r) =>
      match skipJsonWs r with
      | ',' :: r2 => parseArrItems fuel r2 (v :: acc)
      | ']' :: r2 => .ok (.arr (v :: acc).reverse, r2)
      | _ => .error "expected comma or end of array".data

end

/-- `JSON.parse`: parse one value and require only whitespace after it;
failures are reported as `Except.error` (the thrown `SyntaxError`). -/
def jsonParse (content : List Char) : Except (List Char) JsValue :=
  match parseValue (2 * content.length + 2) content with
  | .error e => .error e
  | .ok (v, rest) =>
    if (skipJsonWs rest).isEmpty then .ok v
    else .error "unexpected trailing characters".data

/-- Property access `parsed.key` on a parse result: only objects yield
fields (JavaScript object literals keep the **last** duplicate key);
property access on numbers, strings, booleans and arrays yields
`undefined` (`none`).  Access on `null` throws and is handled at the call
sites. -/
def getField (v : JsValue) (key : List Char) : Option JsValue :=
  match v with
  | .obj fields => (fields.reverse.find? (fun p => p.1 == key)).map Prod.snd
  | _ => none

/-- JavaScript truthiness of `parsed.key`. -/
def jsTruthy : Option JsValue → Bool
  | none => false
  | some .null => false
  | some (.bool b) => b
  | some (.num q) => !(q == 0)
  | some (.str s) => !s.isEmpty
  | some (.arr _) => true
  | some (.obj _) => true

namespace AIProc

/-- A quote character of the regex class `['"]`. -/
def isQuote (c : Char) : Bool := c = sq || c = dq

/-- The optional one-character class `['":]`. -/
def quoteOrColon (c : Char) : Bool := isQuote c || c = ':'

/-- The tail of the regexes `/analysis['":]?\s*['"](.*?)['"]/` and its
`assessment` sibling, matched after the literal word: an optional quote or
colon (with backtracking to not consuming it), whitespace, an opening
quote, then a lazy capture up to the next quote (which must exist). -/
def quoteCaptureAfter (l : List Char) : Option (List Char) :=
  let attempt := fun (l2 : List Char) =>
    match l2.dropWhile isWs with
    | q :: r =>
      if isQuote q then
        if (r.drop (r.takeWhile (fun c => !(isQuote c))).length).isEmpty then
          none
        else some (r.takeWhile (fun c => !(isQuote c)))
      else none
    | [] => none
  match l with
  | c :: r =>
    if quoteOrColon c then
      match attempt r with
      | some cap => some cap
      | none => attempt l
    else attempt l
  | [] => attempt l

/-- Scan for the first position where `/analysis['":]?\s*['"](.*?)['"]/i`
matches. -/
def scanAnalysisPat : Nat → List Char → Option (List Char)
  | 0, _ => none
  | _ + 1, [] => none
  | fuel + 1, c :: r =>
    match ciPrefixDrop "analysis".data (c :: r) with
    | some rest =>
      match quoteCaptureAfter rest with
      | some cap => some cap
      | none => scanAnalysisPat fuel r
    | none => scanAnalysisPat fuel r

/-- Scan for `assessment` followed by a quoted capture (the second half of
`/overall.*?assessment['":]?\s*['"](.*?)['"]/is`). -/
def scanAssessmentPat : Nat → List Char → Option (List Char)
  | 0, _ => none
  | _ + 1, [] => none
  | fuel + 1, c :: r =>
    match ciPrefixDrop "assessment".data (c :: r) with
    | some rest =>
      match quoteCaptureAfter rest with
      | some cap => some cap
      | none => scanAssessmentPat fuel r
    | none => scanAssessmentPat fuel r

/-- Scan for `overall` and then delegate to the `assessment` scan. -/
def scanOverallPat : Nat → List Char → Option (List Char)
  | 0, _ => none
  | _ + 1, [] => none
  | fuel + 1, c :: r =>
    match ciPrefixDrop "overall".data (c :: r) with
    | some rest =>
      match scanAssessmentPat rest.length rest with
      | some cap => some cap
      | none => scanOverallPat fuel r
    | none => scanOverallPat fuel r

/-- `/^(.*?)(?:suggestions?|recommendations?)/is`: the prefix before the
first case-insensitive occurrence of `suggestion` or `recommendation`, if
any. -/
def scanLeadingPat : Nat → List Char → List Char → Option (List Char)
  | 0, _, _ => none
  | _ + 1, _, [] => none
  | fuel + 1, acc, c :: r =>
    if (ciPrefixDrop "suggestion".data (c :: r)).isSome ||
        (ciPrefixDrop "recommendation".data (c :: r)).isSome then
      some acc.reverse
    else scanLeadingPat fuel (c :: acc) r

/-- `AIProcessor.extractAnalysisFromText`
(`src/server/utils/aiProcessor.js`, lines 305–312): the three regex
alternatives in order, else the first 500 characters with an ellipsis. -/
def extractAnalysisFromText (text : List Char) : List Char :=
  match scanAnalysisPat text.length text with
  | some cap => jsTrim cap
  | none =>
    match scanOverallPat text.length text with
    | some cap => jsTrim cap
    | none =>
      match scanLeadingPat text.length [] text with
      | some cap => jsTrim cap
      | none => text.take 500 ++ "...".data

/-- A list marker of `/(?:\d+\.|[-*])/`: digits-dot or a bullet; returns
the rest after the marker. -/
def markerTail : List Char → Option (List Char)
  | [] => none
  | '-' :: r => some r
  | '*' :: r => some r
  | c :: r =>
    if c.isDigit then
      match (c :: r).drop ((c :: r).takeWhile Char.isDigit).length with
      | '.' :: r2 => some r2
      | _ => none
    else none

/-- The lookahead `(?=\d+\.|[-*]|$)`. -/
def atSuggestionBoundary (l : List Char) : Bool :=
  l.isEmpty || (markerTail l).isSome

/-- The lazy capture `(.+?)` (first character already consumed): extend
until the boundary lookahead holds. -/
def captureLazyGo : Nat → List Char → List Char → List Char × List Char
  | 0, acc, l => (acc.reverse, l)
  | _ + 1, acc, [] => (acc.reverse, [])
  | fuel + 1, acc, c :: r =>
    if atSuggestionBoundary (c :: r) then (acc.reverse, c :: r)
    else captureLazyGo fuel (c :: acc) r

/-- The global scan of `/(?:\d+\.|[-*])\s*(.+?)(?=\d+\.|[-*]|$)/gs`: the
captured pieces in order.  (A marker at the very end of the text, where
`.+?` has nothing left to capture even after giving back the `\s*`, yields
a whitespace-only capture in the engine; it is skipped here — both trims to
an empty content and produces no suggestion.) -/
def suggestionPieces : Nat → List Char → List (List Char)
  | 0, _ => []
  | _ + 1, [] => []
  | fuel + 1, c :: r =>
    match markerTail (c :: r) with
    | some afterMark =>
      match afterMark.dropWhile isWs with
      | [] => suggestionPieces fuel r
      | d :: r2 =>
        (captureLazyGo r2.length [d] r2).1 ::
          suggestionPieces fuel (captureLazyGo r2.length [d] r2).2
    | none => suggestionPieces fuel r

/-- Remove the leftmost `\s*[-*]\s*` occurrence, if any (the second
alternative of the non-global `replace(/^\d+\.|\s*[-*]\s*/, '')`). -/
def removeFirstBulletGo : Nat → List Char → List Char → List Char
  | 0, acc, l => acc.reverse ++ l
  | _ + 1, acc, [] => acc.reverse
  | fuel + 1, acc, c :: r =>
    match (c :: r).drop ((c :: r).takeWhile isWs).length with
    | b :: r2 =>
      if b = '-' || b = '*' then acc.reverse ++ r2.dropWhile isWs
      else removeFirstBulletGo fuel (c :: acc) r
    | [] => acc.reverse ++ (c :: r)

/-- `content.replace(/^\d+\.|\s*[-*]\s*/, '')`: an anchored digits-dot
prefix wins, else the first bullet (with surrounding whitespace) anywhere
is removed. -/
def stripSuggestionMarker (piece : List Char) : List Char :=
  match piece.takeWhile Char.isDigit, piece.drop (piece.takeWhile Char.isDigit).length with
  | _ :: _, '.' :: rest => rest
  | _, _ => removeFirstBulletGo piece.length [] piece

/-- The fallback suggestion object `{category: 'general', content,
priority: 'medium'}`. -/
def mkFallbackSuggestion (content : List Char) : JsValue :=
  .obj [("category".data, .str "general".data),
    ("content".data, .str content),
    ("priority".data, .str "medium".data)]

/-- `AIProcessor.extractSuggestionsFromText`
(`src/server/utils/aiProcessor.js`, lines 319–339): each captured piece is
stripped of its marker, trimmed, and kept as a general/medium suggestion
when longer than 10 characters. -/
def extractSuggestionsFromText (text : List Char) : List JsValue :=
  ((suggestionPieces text.length text).map
      fun piece => jsTrim (stripSuggestionMarker piece)).filterMap
    fun content =>
      if 10 < content.length then some (mkFallbackSuggestion content) else none

/-- The result shape of `parseAIResponse`: an `analysis` value and a
`suggestions` array (both plain JavaScript values). -/
structure AIParsed where
  analysis : JsValue
  suggestions : List JsValue

/-- `AIProcessor.parseAIResponse` (`src/server/utils/aiProcessor.js`, lines
280–298): try `JSON.parse`; on success take `parsed.analysis ||
'Analysis not provided'` and the `suggestions` array if it is one; any
exception inside the `try` — a parse failure, or the `TypeError` from
`parsed.analysis` when the response is the JSON literal `null` — falls back
to the heuristic text extraction.  The result is always `Except.ok`: no
exception propagates to the caller. -/
def parseAIResponse (response : List Char) : Except (List Char) AIParsed :=
  match jsonParse response with
  | .ok .null =>
    .ok ⟨.str (extractAnalysisFromText response),
      extractSuggestionsFromText response⟩
  | .ok v =>
    .ok ⟨(if jsTruthy (getField v "analysis".data) then
          (getField v "analysis".data).getD .null
        else .str "Analysis not provided".data),
      (match getField v "suggestions".data with
        | some (.arr items) => items
        | _ => [])⟩
  | .error _ =>
    .ok ⟨.str (extractAnalysisFromText response),
      extractSuggestionsFromText response⟩

end AIProc

namespace OpenAIProc

/-- `AIProcessor.getEmptyResponse` (`src/unnamed/part_009`, second file,
lines 514–522): the safe fallback object. -/
def getEmptyResponse : JsValue :=
  .obj [("summary".data,
      .str "Analysis could not be completed due to processing error".data),
    ("explanations".data, .arr []),
    ("insights".data, .arr [.str "Please try again with different content".data]),
    ("study_tips".data, .arr [.str "Content may need to be clearer or shorter".data]),
    ("related_concepts".data, .arr [])]

/-- `AIProcessor.parseJSONResponse` (`src/unnamed/part_009`, second file,
lines 486–508): a missing or empty `content` yields the fallback; a parse
failure, or a parsed value that is not an object (`typeof parsed !==
'object' || parsed === null` — arrays pass this test), is caught and also
yields the fallback.  The result is always `Except.ok`. -/
def parseJSONResponse (content : Option (List Char)) :
    Except (List Char) JsValue :=
  match content with
  | none => .ok getEmptyResponse
  | some c =>
    if c.isEmpty then .ok getEmptyResponse
    else
      match jsonParse c with
      | .ok (.obj fields) => .ok (.obj fields)
      | .ok (.arr items) => .ok (.arr items)
      | .ok _ => .ok getEmptyResponse
      | .error _ => .ok getEmptyResponse

end OpenAIProc

/-! ## Lemmas and theorems -/

theorem nonWs_append (a b : List Char) : nonWs (a ++ b) = nonWs a ++ nonWs b := by
  simp [nonWs]

theorem nonWs_cons_of_ws {c : Char} (h : isWs c = true) (l : List Char) :
    nonWs (c :: l) = nonWs l := by
  simp [nonWs, List.filter_cons, h]

theorem nonWs_eq_nil_of_all_ws {l : List Char} (h : ∀ c ∈ l, isWs c = true) :
    nonWs l = [] := by
  simp only [nonWs, List.filter_eq_nil_iff]
  intro c hc
  simp [h c hc]

theorem nonWs_flatten (L : List (List Char)) :
    nonWs L.flatten = (L.map nonWs).flatten := by
  induction L with
  | nil => rfl
  | cons a L ih => simp [nonWs_append, ih]

namespace AIProc

theorem lastNlIdx_lt {l : List Char} {p : Nat} (h : lastNlIdx l = some p) :
    p < l.length := by
  induction l generalizing p with
  | nil => simp [lastNlIdx] at h
  | cons c r ih =>
    unfold lastNlIdx at h
    split at h
    · rename_i q hq
      cases h
      have := ih hq
      simp only [List.length_cons]
      omega
    · split at h
      · cases h
        simp
      · cases h

/-- The separator matched by `/\n\s*\n/` consists of whitespace only, so
splitting removes no non-whitespace content. -/
theorem nonWs_paraSepTail {r rest : List Char} (h : paraSepTail r = some rest) :
    nonWs rest = nonWs r := by
  unfold paraSepTail at h
  cases hn : lastNlIdx (r.takeWhile isWs) with
  | none => rw [hn] at h; cases h
  | some p =>
    rw [hn] at h
    cases h
    have hp : p + 1 ≤ (r.takeWhile isWs).length := lastNlIdx_lt hn
    have htake : r.take (p + 1) = (r.takeWhile isWs).take (p + 1) := by
      conv_lhs => rw [← List.takeWhile_append_dropWhile (p := isWs) (l := r)]
      have h0 : p + 1 - (r.takeWhile isWs).length = 0 := by omega
      rw [List.take_append_eq_append_take, h0, List.take_zero, List.append_nil]
    have hws : nonWs (r.take (p + 1)) = [] := by
      apply nonWs_eq_nil_of_all_ws
      intro c hc
      rw [htake] at hc
      exact List.mem_takeWhile_imp (List.take_subset _ _ hc)
    conv_rhs => rw [← List.take_append_drop (p + 1) r]
    rw [nonWs_append, hws, List.nil_append]

theorem nonWs_reverse_cons_step (acc : List Char) (c : Char) (r : List Char) :
    nonWs (c :: acc).reverse ++ nonWs r = nonWs acc.reverse ++ nonWs (c :: r) := by
  rw [List.reverse_cons, nonWs_append, show (c :: r) = [c] ++ r from rfl,
    nonWs_append, List.append_assoc]

theorem nonWs_flatten_splitParagraphsGo :
    ∀ (fuel : Nat) (acc l : List Char),
      ((splitParagraphsGo fuel acc l).map nonWs).flatten =
        nonWs acc.reverse ++ nonWs l := by
  intro fuel
  induction fuel with
  | zero =>
    intro acc l
    simp [splitParagraphsGo, nonWs_append, nonWs]
  | succ fuel ih =>
    intro acc l
    cases l with
    | nil => simp [splitParagraphsGo, nonWs]
    | cons c r =>
      simp only [splitParagraphsGo]
      split
      · rename_i hc
        cases hsep : paraSepTail r with
        | some rest =>
          simp only [hsep, List.map_cons, List.flatten_cons]
          rw [ih [] rest, nonWs_paraSepTail hsep, hc,
            nonWs_cons_of_ws (by decide) r]
          simp [nonWs]
        | none =>
          simp only [hsep]
          rw [ih, nonWs_reverse_cons_step]
      · rw [ih, nonWs_reverse_cons_step]

/-- Splitting on `/\n\s*\n/` preserves non-whitespace content. -/
theorem nonWs_flatten_splitParagraphs (l : List Char) :
    ((splitParagraphs l).map nonWs).flatten = nonWs l := by
  unfold splitParagraphs
  rw [nonWs_flatten_splitParagraphsGo]
  simp [nonWs]

/-- Invariant of the paragraph loop: when every remaining paragraph fits the
bound, every emitted chunk and the running chunk stay within `maxLen + 2`
(the slack of one uncounted `'\n\n'` joiner), and the sentence branch is
never entered. -/
theorem chunkParagraphLoop_bound (maxLen : Nat) :
    ∀ (ps chunks : List (List Char)) (cur : List Char),
      (∀ p ∈ ps, p.length ≤ maxLen) →
      (∀ c ∈ chunks, c.length ≤ maxLen + 2) →
      cur.length ≤ maxLen + 2 →
      (∀ c ∈ (chunkParagraphLoop maxLen ps chunks cur).1, c.length ≤ maxLen + 2) ∧
        (chunkParagraphLoop maxLen ps chunks cur).2.length ≤ maxLen + 2 := by
  intro ps
  induction ps with
  | nil =>
    intro chunks cur _ hchunks hcur
    exact ⟨hchunks, hcur⟩
  | cons p ps ih =>
    intro chunks cur hp hchunks hcur
    have hphead : p.length ≤ maxLen := hp p (by simp)
    have hptail : ∀ q ∈ ps, q.length ≤ maxLen := fun q hq => hp q (by simp [hq])
    simp only [chunkParagraphLoop]
    split
    · rename_i hfit
      apply ih _ _ hptail hchunks
      split
      · omega
      · rw [List.length_append] at hfit ⊢
        simp only [List.length_cons]
        omega
    · split
      · rename_i hfit hemp
        exact absurd (by simp [List.isEmpty_iff.mp hemp]; omega) hfit
      · apply ih _ _ hptail
        · intro c hc
          rcases List.mem_append.mp hc with h | h
          · exact hchunks c h
          · simp only [List.mem_singleton] at h
            subst h
            exact hcur
        · omega

/-- Content invariant of the paragraph loop: when every remaining paragraph
fits the bound, the non-whitespace content of (emitted chunks ++ running
chunk) equals that of (already emitted chunks ++ running chunk ++ remaining
paragraphs). -/
theorem chunkParagraphLoop_content (maxLen : Nat) :
    ∀ (ps chunks : List (List Char)) (cur : List Char),
      (∀ p ∈ ps, p.length ≤ maxLen) →
      nonWs ((chunkParagraphLoop maxLen ps chunks cur).1.flatten ++
          (chunkParagraphLoop maxLen ps chunks cur).2) =
        nonWs (chunks.flatten ++ cur ++ ps.flatten) := by
  intro ps
  induction ps with
  | nil =>
    intro chunks cur _
    simp [chunkParagraphLoop]
  | cons p ps ih =>
    intro chunks cur hp
    have hphead : p.length ≤ maxLen := hp p (by simp)
    have hptail : ∀ q ∈ ps, q.length ≤ maxLen := fun q hq => hp q (by simp [hq])
    simp only [chunkParagraphLoop]
    split
    · rename_i hfit
      rw [ih _ _ hptail]
      split
      · rename_i hemp
        rw [List.isEmpty_iff.mp hemp]
        simp [nonWs_append, List.append_assoc]
      · simp only [List.flatten_cons, nonWs_append, List.append_assoc]
        rw [show nonWs ('\n' :: '\n' :: p) = nonWs p from rfl]
    · split
      · rename_i hfit hemp
        exact absurd (by simp [List.isEmpty_iff.mp hemp]; omega) hfit
      · rw [ih _ _ hptail]
        simp [nonWs_append, List.append_assoc]

/-- C1 (counterexample): the claim "every chunk produced by `chunkText` has
length at most the configured maximum, except when a single atomic unit (one
sentence or word) itself exceeds the maximum" is false.
Input 1: `"ab\n\ncd"` with bound 4 — every paragraph (hence every sentence
and word) has length ≤ 4, yet the single produced chunk has length 6,
because the `'\n\n'` joiner is not counted by the overflow test
`(currentChunk + paragraph).length <= maxChunkLength`.
Input 2: `"ab\n\ncd. ef. gh"` with bound 5 — every sentence of every
paragraph has length ≤ 5, yet a chunk of length 10 is produced: an over-long
paragraph arriving while the current chunk is non-empty is carried whole
(`currentChunk = paragraph`) and is never split at sentence granularity. -/
theorem chunkText_bound_cex :
    ((∀ p ∈ splitParagraphs "ab\n\ncd".data,
        p.length ≤ 4 ∧ ∀ s ∈ splitSentences p, s.length ≤ 4) ∧
      ∃ c ∈ chunkText 4 "ab\n\ncd".data, 4 < c.length) ∧
    ((∀ p ∈ splitParagraphs "ab\n\ncd. ef. gh".data,
        ∀ s ∈ splitSentences p, s.length ≤ 5) ∧
      ∃ c ∈ chunkText 5 "ab\n\ncd. ef. gh".data, 5 + 2 < c.length) := by
  decide

/-- C1 (amended): provided every paragraph of the text fits the configured
bound, every chunk produced by `chunkText` has length at most the bound plus
2 (the two-character `'\n\n'` joiner that the overflow test does not count);
when a paragraph exceeds the bound the chunker can emit chunks that exceed
it even though no atomic unit does. -/
theorem chunkText_le_bound_add_two (maxLen : Nat) (text : List Char)
    (hp : ∀ p ∈ splitParagraphs text, p.length ≤ maxLen) :
    ∀ c ∈ chunkText maxLen text, c.length ≤ maxLen + 2 := by
  intro c hc
  unfold chunkText at hc
  split at hc
  · rename_i hshort
    simp only [List.mem_singleton] at hc
    subst hc
    omega
  · have h := chunkParagraphLoop_bound maxLen (splitParagraphs text) [] []
      hp (by simp) (by simp)
    split at hc
    · exact h.1 c hc
    · rcases List.mem_append.mp hc with h1 | h1
      · exact h.1 c h1
      · simp only [List.mem_singleton] at h1
        subst h1
        exact h.2

/-- Witness for `chunkText_le_bound_add_two` at the concrete input
`"ab\n\ncd"` with bound 4. -/
theorem chunkText_le_bound_add_two_witness :
    (∀ p ∈ splitParagraphs "ab\n\ncd".data, p.length ≤ 4) ∧
      ∀ c ∈ chunkText 4 "ab\n\ncd".data, c.length ≤ 4 + 2 :=
  ⟨by decide, chunkText_le_bound_add_two 4 "ab\n\ncd".data (by decide)⟩

/-- C2 (counterexample): the claim "rejoining the chunks (with the original
separators reinserted) reconstructs the input text's content losslessly
except for boundary whitespace" is false.  For the input `"Ab! Cd! Ef"` with
bound 7, the chunks are `["Ab.  Cd", " Ef"]`: inside the first chunk the
separator `"! "` between `Ab` and `Cd` has been replaced by the hard-coded
`'. '` joiner, so no reinserted separator between chunks can recover the
original non-whitespace content (the third non-whitespace character is now
`'.'` instead of `'!'`). -/
theorem chunkText_rejoin_cex :
    chunkText 7 "Ab! Cd! Ef".data = ["Ab.  Cd".data, " Ef".data] ∧
    ∀ sep : List Char,
      nonWs ("Ab.  Cd".data ++ sep ++ " Ef".data) ≠ nonWs "Ab! Cd! Ef".data := by
  refine ⟨by decide, ?_⟩
  intro sep h
  have h' : nonWs "Ab.  Cd".data ++ nonWs (sep ++ " Ef".data) =
      nonWs "Ab! Cd! Ef".data := by
    rw [← nonWs_append, ← List.append_assoc]
    exact h
  rw [show nonWs "Ab.  Cd".data = 'A' :: 'b' :: '.' :: 'C' :: 'd' :: [] by decide,
    show nonWs "Ab! Cd! Ef".data =
      'A' :: 'b' :: '!' :: 'C' :: 'd' :: '!' :: 'E' :: 'f' :: [] by decide] at h'
  simp only [List.cons_append, List.nil_append, List.cons.injEq] at h'
  exact absurd h'.2.2.1 (by decide)

/-- C2 (amended): provided every paragraph of the text fits the configured
bound (so the chunker groups whole paragraphs and the lossy sentence-level
re-joining never runs), concatenating the chunks reconstructs the text's
non-whitespace content exactly; the discarded paragraph separators are
whitespace only. -/
theorem chunkText_rejoin_nonWs (maxLen : Nat) (text : List Char)
    (hp : ∀ p ∈ splitParagraphs text, p.length ≤ maxLen) :
    nonWs (chunkText maxLen text).flatten = nonWs text := by
  unfold chunkText
  split
  · simp
  · have hB := chunkParagraphLoop_content maxLen (splitParagraphs text) [] [] hp
    have hA : nonWs (splitParagraphs text).flatten = nonWs text := by
      rw [nonWs_flatten, nonWs_flatten_splitParagraphs]
    simp only [List.flatten_nil, List.nil_append] at hB
    split
    · rename_i hemp
      rw [List.isEmpty_iff.mp hemp] at hB
      rw [← List.append_nil ((chunkParagraphLoop maxLen (splitParagraphs text) [] []).1.flatten)]
      rw [hB, hA]
    · rw [List.flatten_append]
      simp only [List.flatten_cons, List.flatten_nil, List.append_nil]
      rw [hB, hA]

/-- Witness for `chunkText_rejoin_nonWs` at the concrete input `"ab\n\ncd"`
with bound 4. -/
theorem chunkText_rejoin_nonWs_witness :
    nonWs (chunkText 4 "ab\n\ncd".data).flatten = nonWs "ab\n\ncd".data :=
  chunkText_rejoin_nonWs 4 "ab\n\ncd".data (by decide)

/-- When the input contains no newline, the paragraph split is trivial. -/
theorem splitParagraphsGo_no_nl :
    ∀ (fuel : Nat) (acc l : List Char), '\n' ∉ l →
      splitParagraphsGo fuel acc l = [acc.reverse ++ l] := by
  intro fuel
  induction fuel with
  | zero => intro acc l _; rfl
  | succ fuel ih =>
    intro acc l hl
    cases l with
    | nil => simp [splitParagraphsGo]
    | cons c r =>
      have hc : ¬c = '\n' := fun h => hl (by simp [h])
      have hr : '\n' ∉ r := fun h => hl (by simp [h])
      simp only [splitParagraphsGo, if_neg hc]
      rw [ih (c :: acc) r hr]
      simp

/-- A newline-free text is a single paragraph for `chunkText`. -/
theorem splitParagraphs_no_nl {l : List Char} (h : '\n' ∉ l) :
    splitParagraphs l = [l] := by
  unfold splitParagraphs
  rw [splitParagraphsGo_no_nl _ _ _ h]
  simp

end AIProc

theorem collapseWsGo_ws_eq_space :
    ∀ (b : Bool) (l : List Char), ∀ c ∈ collapseWsGo b l,
      isWs c = true → c = ' ' := by
  intro b l
  induction l generalizing b with
  | nil => simp [collapseWsGo]
  | cons d r ih =>
    intro c hc hws
    simp only [collapseWsGo] at hc
    split at hc
    · split at hc
      · exact ih _ c hc hws
      · rcases List.mem_cons.mp hc with h | h
        · exact h
        · exact ih _ c h hws
    · rcases List.mem_cons.mp hc with h | h
      · subst h; rename_i hd; exact absurd hws (by simp [hd])
      · exact ih _ c h hws

theorem scanReplace_chars
    (m : List Char → Option (List Char × List Char)) (extra : List Char)
    (hm : ∀ l e r, m l = some (e, r) →
      (∀ c ∈ e, c ∈ l ∨ c ∈ extra) ∧ ∀ c ∈ r, c ∈ l) :
    ∀ (fuel : Nat) (l : List Char), ∀ c ∈ scanReplace m fuel l,
      c ∈ l ∨ c ∈ extra := by
  intro fuel
  induction fuel with
  | zero => intro l c hc; exact Or.inl hc
  | succ fuel ih =>
    intro l c hc
    cases l with
    | nil => simp [scanReplace] at hc
    | cons d r =>
      simp only [scanReplace] at hc
      cases hmatch : m (d :: r) with
      | some er =>
        rw [hmatch] at hc
        rcases List.mem_append.mp hc with h | h
        · exact (hm _ _ _ hmatch).1 c h
        · rcases ih er.2 c h with h2 | h2
          · exact Or.inl ((hm _ _ _ hmatch).2 c h2)
          · exact Or.inr h2
      | none =>
        rw [hmatch] at hc
        rcases List.mem_cons.mp hc with h | h
        · exact Or.inl (by simp [h])
        · rcases ih r c h with h2 | h2
          · exact Or.inl (by simp [h2])
          · exact Or.inr h2

theorem scanReplace_id
    (m : List Char → Option (List Char × List Char)) (P : Char → Prop)
    (hm : ∀ l, (∀ c ∈ l, P c) → m l = none) :
    ∀ (fuel : Nat) (l : List Char), (∀ c ∈ l, P c) →
      scanReplace m fuel l = l := by
  intro fuel
  induction fuel with
  | zero => intro l _; rfl
  | succ fuel ih =>
    intro l hl
    cases l with
    | nil => rfl
    | cons d r =>
      simp only [scanReplace, hm _ hl]
      rw [ih r fun c hc => hl c (by simp [hc])]

theorem jsTrim_subset (l : List Char) : ∀ c ∈ jsTrim l, c ∈ l := by
  intro c hc
  simp only [jsTrim, List.mem_reverse] at hc
  exact (List.dropWhile_sublist _).subset
    ((List.mem_reverse).mp ((List.dropWhile_sublist _).subset hc))

theorem splitOnNlGo_no_nl :
    ∀ (acc l : List Char), '\n' ∉ l → splitOnNlGo acc l = [acc.reverse ++ l] := by
  intro acc l
  induction l generalizing acc with
  | nil => intro _; simp [splitOnNlGo]
  | cons c r ih =>
    intro hl
    have hc : ¬c = '\n' := fun h => hl (by simp [h])
    have hr : '\n' ∉ r := fun h => hl (by simp [h])
    simp only [splitOnNlGo, if_neg hc]
    rw [ih (c :: acc) hr]
    simp

theorem ciPrefixDrop_some {pat l r : List Char}
    (h : ciPrefixDrop pat l = some r) : r = l.drop pat.length := by
  unfold ciPrefixDrop at h
  split at h
  · cases h; rfl
  · cases h

namespace OCRP10

theorem removeStandaloneNumbers_subset_of_no_nl {l : List Char}
    (h : '\n' ∉ l) : ∀ c ∈ removeStandaloneNumbers l, c ∈ l := by
  intro c hc
  unfold removeStandaloneNumbers splitOnNl at hc
  rw [splitOnNlGo_no_nl [] l h] at hc
  simp only [List.reverse_nil, List.nil_append, List.map_cons, List.map_nil,
    List.intercalate] at hc
  split at hc
  · simp at hc
  · simpa using hc

theorem pageMatcher_chars :
    ∀ l e r, pageMatcher l = some (e, r) →
      (∀ c ∈ e, c ∈ l ∨ c ∈ ([] : List Char)) ∧ ∀ c ∈ r, c ∈ l := by
  intro l e r h
  unfold pageMatcher at h
  split at h
  · rename_i rest hrest
    split at h
    · rename_i d tail
      split at h
      · cases h
        refine ⟨by simp, ?_⟩
        intro c hc
        have h1 : c ∈ d :: tail := (List.dropWhile_sublist _).subset hc
        rw [ciPrefixDrop_some hrest] at h1
        exact List.drop_subset _ _ h1
      · cases h
    · cases h
  · cases h

theorem watermarkMatcher_chars :
    ∀ l e r, watermarkMatcher l = some (e, r) →
      (∀ c ∈ e, c ∈ l ∨ c ∈ ([] : List Char)) ∧ ∀ c ∈ r, c ∈ l := by
  intro l e r h
  unfold watermarkMatcher at h
  split at h
  · rename_i r1 h1
    cases h
    exact ⟨by simp, fun c hc => List.drop_subset _ _ (ciPrefixDrop_some h1 ▸ hc)⟩
  · split at h
    · rename_i r1 h1
      cases h
      exact ⟨by simp, fun c hc => List.drop_subset _ _ (ciPrefixDrop_some h1 ▸ hc)⟩
    · split at h
      · rename_i r1 h1
        cases h
        exact ⟨by simp, fun c hc => List.drop_subset _ _ (ciPrefixDrop_some h1 ▸ hc)⟩
      · cases h

theorem blankRunMatcher_none_of_good {l : List Char}
    (hl : ∀ c ∈ l, c ≠ '\n' ∧ c ≠ '\r') : blankRunMatcher l = none := by
  unfold blankRunMatcher
  split
  · rename_i rest
    exact absurd (hl '\n' (by simp)).1 (by simp)
  · rfl

theorem sentenceJoinMatcher_chars :
    ∀ l e r, sentenceJoinMatcher l = some (e, r) →
      (∀ c ∈ e, c ∈ l ∨ c ∈ [' ']) ∧ ∀ c ∈ r, c ∈ l := by
  intro l e r h
  unfold sentenceJoinMatcher at h
  split at h
  · rename_i c0 rest
    split at h
    · split at h
      · split at h
        · rename_i u rest2 heq
          split at h
          · cases h
            have hu : u ∈ rest := by
              have : u ∈ rest.drop (rest.takeWhile isWs).length := by
                rw [heq]; simp
              exact List.drop_subset _ _ this
            refine ⟨?_, ?_⟩
            · intro c hc
              rcases List.mem_cons.mp hc with h1 | h1
              · exact Or.inl (by simp [h1])
              · rcases List.mem_cons.mp h1 with h2 | h2
                · exact Or.inr (by simp [h2])
                · rcases List.mem_cons.mp h2 with h3 | h3
                  · exact Or.inl (by subst h3; simp [hu])
                  · simp at h3
            · intro c hc
              have : c ∈ rest.drop (rest.takeWhile isWs).length := by
                rw [heq]; simp [hc]
              exact List.mem_cons_of_mem c0 (List.drop_subset _ _ this)
          · cases h
        · cases h
      · cases h
    · cases h
  · cases h

/-- No character of `cleanText`'s output is a newline or carriage return:
the first rule replaces every whitespace character by a space, and no later
rule introduces one. -/
theorem cleanText_good (t : List Char) :
    ∀ c ∈ cleanText t, c ≠ '\n' ∧ c ≠ '\r' := by
  have g1 : ∀ c ∈ collapseWs t, c ≠ '\n' ∧ c ≠ '\r' := by
    intro c hc
    have hsp := collapseWsGo_ws_eq_space false t c hc
    constructor
    · intro h; subst h; exact absurd (hsp (by decide)) (by decide)
    · intro h; subst h; exact absurd (hsp (by decide)) (by decide)
  have g2 : ∀ c ∈ runReplace pageMatcher (collapseWs t), c ≠ '\n' ∧ c ≠ '\r' := by
    intro c hc
    rcases scanReplace_chars pageMatcher [] pageMatcher_chars _ _ c hc with h | h
    · exact g1 c h
    · simp at h
  have g3 : ∀ c ∈ removeStandaloneNumbers (runReplace pageMatcher (collapseWs t)),
      c ≠ '\n' ∧ c ≠ '\r' := by
    intro c hc
    have hnl : '\n' ∉ runReplace pageMatcher (collapseWs t) := by
      intro h; exact (g2 '\n' h).1 rfl
    exact g2 c (removeStandaloneNumbers_subset_of_no_nl hnl c hc)
  have g4 : ∀ c ∈ runReplace watermarkMatcher
      (removeStandaloneNumbers (runReplace pageMatcher (collapseWs t))),
      c ≠ '\n' ∧ c ≠ '\r' := by
    intro c hc
    rcases scanReplace_chars watermarkMatcher [] watermarkMatcher_chars _ _ c hc with h | h
    · exact g3 c h
    · simp at h
  have g5 : ∀ c ∈ runReplace blankRunMatcher (runReplace watermarkMatcher
      (removeStandaloneNumbers (runReplace pageMatcher (collapseWs t)))),
      c ≠ '\n' ∧ c ≠ '\r' := by
    have hid : runReplace blankRunMatcher (runReplace watermarkMatcher
        (removeStandaloneNumbers (runReplace pageMatcher (collapseWs t)))) =
        runReplace watermarkMatcher
          (removeStandaloneNumbers (runReplace pageMatcher (collapseWs t))) :=
      scanReplace_id blankRunMatcher (fun c => c ≠ '\n' ∧ c ≠ '\r')
        (fun _ hl => blankRunMatcher_none_of_good hl) _ _ g4
    rw [hid]
    exact g4
  have g6 : ∀ c ∈ runReplace sentenceJoinMatcher
      (runReplace blankRunMatcher (runReplace watermarkMatcher
        (removeStandaloneNumbers (runReplace pageMatcher (collapseWs t))))),
      c ≠ '\n' ∧ c ≠ '\r' := by
    intro c hc
    rcases scanReplace_chars sentenceJoinMatcher [' '] sentenceJoinMatcher_chars
      _ _ c hc with h | h
    · exact g5 c h
    · simp only [List.mem_singleton] at h
      subst h
      exact ⟨by decide, by decide⟩
  intro c hc
  exact g6 c (jsTrim_subset _ c hc)

end OCRP10

namespace OCRServer

theorem zeroMatcher_chars :
    ∀ l e r, zeroMatcher l = some (e, r) →
      (∀ c ∈ e, c ∈ l ∨ c ∈ ['O']) ∧ ∀ c ∈ r, c ∈ l := by
  intro l e r h
  unfold zeroMatcher at h
  split at h
  · rename_i a b rest
    split at h
    · cases h
      refine ⟨?_, by intro c hc; simp [hc]⟩
      intro c hc
      rcases List.mem_cons.mp hc with h1 | h1
      · exact Or.inl (by simp [h1])
      · rcases List.mem_cons.mp h1 with h2 | h2
        · exact Or.inr (by simp [h2])
        · rcases List.mem_cons.mp h2 with h3 | h3
          · exact Or.inl (by simp [h3])
          · simp at h3
    · cases h
  · cases h

theorem oneMatcher_chars :
    ∀ l e r, oneMatcher l = some (e, r) →
      (∀ c ∈ e, c ∈ l ∨ c ∈ ['I']) ∧ ∀ c ∈ r, c ∈ l := by
  intro l e r h
  unfold oneMatcher at h
  split at h
  · rename_i a b rest
    split at h
    · cases h
      refine ⟨?_, by intro c hc; simp [hc]⟩
      intro c hc
      rcases List.mem_cons.mp hc with h1 | h1
      · exact Or.inl (by simp [h1])
      · rcases List.mem_cons.mp h1 with h2 | h2
        · exact Or.inr (by simp [h2])
        · rcases List.mem_cons.mp h2 with h3 | h3
          · exact Or.inl (by simp [h3])
          · simp at h3
    · cases h
  · cases h

theorem crlfMatcher_none_of_good {l : List Char}
    (hl : ∀ c ∈ l, c ≠ '\n' ∧ c ≠ '\r') : crlfMatcher l = none := by
  unfold crlfMatcher
  split
  · rename_i rest
    exact absurd (hl '\r' (by simp)).2 (by simp)
  · rfl

theorem crMatcher_none_of_good {l : List Char}
    (hl : ∀ c ∈ l, c ≠ '\n' ∧ c ≠ '\r') : crMatcher l = none := by
  unfold crMatcher
  split
  · rename_i rest
    exact absurd (hl '\r' (by simp)).2 (by simp)
  · rfl

/-- No character of `cleanExtractedText`'s output is a newline or carriage
return: the first rule replaces every whitespace character by a space; the
strip keeps a subset; the digit corrections insert only `O`/`I`; and the
line-break normalisation rules find nothing to rewrite. -/
theorem cleanExtractedText_good (t : List Char) :
    ∀ c ∈ cleanExtractedText t, c ≠ '\n' ∧ c ≠ '\r' := by
  have g1 : ∀ c ∈ collapseWs t, c ≠ '\n' ∧ c ≠ '\r' := by
    intro c hc
    have hsp := collapseWsGo_ws_eq_space false t c hc
    constructor
    · intro h; subst h; exact absurd (hsp (by decide)) (by decide)
    · intro h; subst h; exact absurd (hsp (by decide)) (by decide)
  have g2 : ∀ c ∈ stripNonPrintable (collapseWs t), c ≠ '\n' ∧ c ≠ '\r' :=
    by
      intro c hc
      unfold stripNonPrintable at hc
      exact g1 c (List.mem_of_mem_filter hc)
  have g3 : ∀ c ∈ runReplace zeroMatcher (stripNonPrintable (collapseWs t)),
      c ≠ '\n' ∧ c ≠ '\r' := by
    intro c hc
    rcases scanReplace_chars zeroMatcher ['O'] zeroMatcher_chars _ _ c hc with h | h
    · exact g2 c h
    · simp only [List.mem_singleton] at h
      subst h
      exact ⟨by decide, by decide⟩
  have g4 : ∀ c ∈ runReplace oneMatcher (runReplace zeroMatcher
      (stripNonPrintable (collapseWs t))), c ≠ '\n' ∧ c ≠ '\r' := by
    intro c hc
    rcases scanReplace_chars oneMatcher ['I'] oneMatcher_chars _ _ c hc with h | h
    · exact g3 c h
    · simp only [List.mem_singleton] at h
      subst h
      exact ⟨by decide, by decide⟩
  have g5 : ∀ c ∈ runReplace crlfMatcher (runReplace oneMatcher
      (runReplace zeroMatcher (stripNonPrintable (collapseWs t)))),
      c ≠ '\n' ∧ c ≠ '\r' := by
    have hid : runReplace crlfMatcher (runReplace oneMatcher
        (runReplace zeroMatcher (stripNonPrintable (collapseWs t)))) =
        runReplace oneMatcher
          (runReplace zeroMatcher (stripNonPrintable (collapseWs t))) :=
      scanReplace_id crlfMatcher (fun c => c ≠ '\n' ∧ c ≠ '\r')
        (fun _ hl => crlfMatcher_none_of_good hl) _ _ g4
    rw [hid]
    exact g4
  have g6 : ∀ c ∈ runReplace crMatcher (runReplace crlfMatcher
      (runReplace oneMatcher (runReplace zeroMatcher
        (stripNonPrintable (collapseWs t))))), c ≠ '\n' ∧ c ≠ '\r' := by
    have hid : runReplace crMatcher (runReplace crlfMatcher
        (runReplace oneMatcher (runReplace zeroMatcher
          (stripNonPrintable (collapseWs t))))) =
        runReplace crlfMatcher (runReplace oneMatcher
          (runReplace zeroMatcher (stripNonPrintable (collapseWs t)))) :=
      scanReplace_id crMatcher (fun c => c ≠ '\n' ∧ c ≠ '\r')
        (fun _ hl => crMatcher_none_of_good hl) _ _ g5
    rw [hid]
    exact g5
  intro c hc
  exact g6 c (jsTrim_subset _ c hc)

end OCRServer

/-- C10: for every input string, the OCR text-cleaning operations return a
string containing no newline characters — the first rule collapses every
whitespace run (including all line breaks) to a single space, the later
line-break-normalisation rules never apply, and no paragraph boundary
survives cleaning: the cleaned text is a single paragraph for the chunker's
paragraph split. -/
theorem ocr_cleaning_no_newline :
    (∀ t : List Char, '\n' ∉ OCRP10.cleanText t) ∧
    (∀ t : List Char, '\n' ∉ OCRServer.cleanExtractedText t) ∧
    (∀ t : List Char,
      AIProc.splitParagraphs (OCRP10.cleanText t) = [OCRP10.cleanText t]) ∧
    (∀ t : List Char,
      AIProc.splitParagraphs (OCRServer.cleanExtractedText t) =
        [OCRServer.cleanExtractedText t]) := by
  have h1 : ∀ t : List Char, '\n' ∉ OCRP10.cleanText t := fun t h =>
    (OCRP10.cleanText_good t '\n' h).1 rfl
  have h2 : ∀ t : List Char, '\n' ∉ OCRServer.cleanExtractedText t := fun t h =>
    (OCRServer.cleanExtractedText_good t '\n' h).1 rfl
  exact ⟨h1, h2, fun t => AIProc.splitParagraphs_no_nl (h1 t),
    fun t => AIProc.splitParagraphs_no_nl (h2 t)⟩


namespace OCRServer

theorem sum_confOf_nonneg :
    ∀ vs : List (Option TWord), (∀ ow ∈ vs, validTessWord ow = true) →
      0 ≤ (vs.map confOf).sum := by
  intro vs
  induction vs with
  | nil => intro _; simp
  | cons ow rest ih =>
    intro h
    simp only [List.map_cons, List.sum_cons]
    have h1 : 0 ≤ confOf ow := by
      have hv := h ow (by simp)
      cases ow with
      | none => simp [validTessWord] at hv
      | some w =>
        simp only [validTessWord, decide_eq_true_eq] at hv
        simp only [confOf]
        linarith
    have h2 := ih fun ow hmem => h ow (by simp [hmem])
    linarith

theorem sum_confOf_le :
    ∀ vs : List (Option TWord), (∀ ow ∈ vs, confOf ow ≤ 100) →
      (vs.map confOf).sum ≤ 100 * (vs.length : ℚ) := by
  intro vs
  induction vs with
  | nil => intro _; simp
  | cons ow rest ih =>
    intro h
    simp only [List.map_cons, List.sum_cons, List.length_cons]
    have h1 : confOf ow ≤ 100 := h ow (by simp)
    have h2 := ih fun ow hmem => h ow (by simp [hmem])
    push_cast
    linarith

/-- C7: provided every present per-token confidence is at most 100 (the
Tesseract contract), the overall confidence is in `[0,1]`, equals the
spec-side "mean of valid per-token confidences, scaled and clamped into
[0,1]", and an input with no tokens or only invalid tokens yields 0.  The
computation is a total function, so no exception escapes to the caller. -/
theorem calculateOverallConfidence_props (d : Option TessData)
    (hb : ∀ ow ∈ tessWords d, confOf ow ≤ 100) :
    0 ≤ calculateOverallConfidence d ∧
      calculateOverallConfidence d ≤ 1 ∧
      calculateOverallConfidence d = specOverallConfidence d ∧
      ((∀ ow ∈ tessWords d, validTessWord ow = false) →
        calculateOverallConfidence d = 0) := by
  cases d with
  | none => simp [calculateOverallConfidence, specOverallConfidence]
  | some dd =>
    cases hw : dd.words with
    | none => simp [calculateOverallConfidence, specOverallConfidence, hw]
    | some ws =>
      have hbws : ∀ ow ∈ ws, confOf ow ≤ 100 := by
        intro ow how
        exact hb ow (by simp [tessWords, hw, how])
      simp only [calculateOverallConfidence, specOverallConfidence, hw]
      by_cases hlen : ws.length = 0
      · rw [List.length_eq_zero] at hlen
        subst hlen
        simp
      · by_cases hvlen : (ws.filter validTessWord).length = 0
        · simp [hlen, hvlen]
        · have hvalid : ∀ ow ∈ ws.filter validTessWord, validTessWord ow = true :=
            fun ow h => (List.mem_filter.mp h).2
          have hsubc : ∀ ow ∈ ws.filter validTessWord, confOf ow ≤ 100 :=
            fun ow h => hbws ow (List.mem_filter.mp h).1
          have hvpos : 0 < ((ws.filter validTessWord).length : ℚ) := by
            have := Nat.pos_of_ne_zero hvlen
            exact_mod_cast this
          have hsum0 := sum_confOf_nonneg _ hvalid
          have hsum1 := sum_confOf_le _ hsubc
          have hm0 : 0 ≤ (((ws.filter validTessWord).map confOf).sum /
              ((ws.filter validTessWord).length : ℚ)) / 100 := by positivity
          have hm1 : (((ws.filter validTessWord).map confOf).sum /
              ((ws.filter validTessWord).length : ℚ)) / 100 ≤ 1 := by
            rw [div_le_one (by norm_num)]
            rw [div_le_iff₀ hvpos]
            linarith
          rw [if_neg hlen, if_neg hvlen, if_neg hvlen]
          refine ⟨hm0, hm1, ?_, ?_⟩
          · unfold clamp01
            rw [max_eq_right hm0, min_eq_right hm1]
          · intro hall
            exfalso
            apply hvlen
            rw [List.length_eq_zero, List.filter_eq_nil_iff]
            intro ow how
            simp [hall ow (by simp [tessWords, hw, how])]

/-- Witness for `calculateOverallConfidence_props` at a concrete Tesseract
result with two valid words (90 and 80), one null entry. -/
theorem calculateOverallConfidence_props_witness :
    (∀ ow ∈ tessWords (some ⟨some [some ⟨"ab".data, 90⟩, none,
        some ⟨"cd".data, 80⟩]⟩ : Option TessData), confOf ow ≤ 100) ∧
      0 ≤ calculateOverallConfidence (some ⟨some [some ⟨"ab".data, 90⟩, none,
        some ⟨"cd".data, 80⟩]⟩) :=
  ⟨by decide,
    (calculateOverallConfidence_props (some ⟨some [some ⟨"ab".data, 90⟩, none,
      some ⟨"cd".data, 80⟩]⟩) (by decide)).1⟩

end OCRServer

namespace OCRP10

theorem retryGo_isOk_iff (attempts : Nat → Except (List Char) (List Char))
    (maxRetries : Nat) :
    ∀ (remaining attempt : Nat) (lastErr : Option (List Char)),
      attempt + remaining = maxRetries + 1 →
      (exceptIsOk (retryGo attempts maxRetries remaining attempt lastErr).1 = false ↔
        ∀ i, i ≤ maxRetries → attempt ≤ i →
          exceptIsOk (attemptOutcome attempts i) = false) := by
  intro remaining
  induction remaining with
  | zero =>
    intro attempt lastErr hsum
    simp only [retryGo, exceptIsOk]
    constructor
    · intro _ i hi1 hi2
      omega
    · intro _
      trivial
  | succ remaining ih =>
    intro attempt lastErr hsum
    simp only [retryGo]
    cases hao : attemptOutcome attempts attempt with
    | ok txt =>
      simp only [exceptIsOk]
      constructor
      · intro hcontra
        cases hcontra
      · intro hall
        have := hall attempt (by omega) (by omega)
        rw [hao] at this
        cases this
    | error e =>
      have hrec : (if attempt < maxRetries then
            ((retryGo attempts maxRetries remaining (attempt + 1) (some e)).1,
              1000 * attempt ::
                (retryGo attempts maxRetries remaining (attempt + 1) (some e)).2)
          else retryGo attempts maxRetries remaining (attempt + 1) (some e)).1 =
          (retryGo attempts maxRetries remaining (attempt + 1) (some e)).1 := by
        split <;> rfl
      rw [hrec, ih (attempt + 1) (some e) (by omega)]
      constructor
      · intro hall i hi1 hi2
        rcases Nat.lt_or_ge attempt i with hlt | hge
        · exact hall i hi1 hlt
        · have : i = attempt := by omega
          subst this
          rw [hao]
          rfl
      · intro hall i hi1 hi2
        exact hall i hi1 (by omega)

theorem retryGo_delays (attempts : Nat → Except (List Char) (List Char))
    (maxRetries : Nat) :
    ∀ (remaining attempt : Nat) (lastErr : Option (List Char)),
      attempt + remaining = maxRetries + 1 →
      (∀ i, i ≤ maxRetries → attempt ≤ i →
        exceptIsOk (attemptOutcome attempts i) = false) →
      (retryGo attempts maxRetries remaining attempt lastErr).2 =
        (List.range' attempt (remaining - 1)).map fun a => 1000 * a := by
  intro remaining
  induction remaining with
  | zero =>
    intro attempt lastErr hsum hall
    simp [retryGo]
  | succ remaining ih =>
    intro attempt lastErr hsum hall
    simp only [retryGo]
    cases hao : attemptOutcome attempts attempt with
    | ok txt =>
      have hfalse := hall attempt (by omega) (by omega)
      rw [hao] at hfalse
      simp [exceptIsOk] at hfalse
    | error e =>
      dsimp only
      split
      · rename_i hlt
        have hrem : 1 ≤ remaining := by omega
        obtain ⟨m, rfl⟩ : ∃ m, remaining = m + 1 := ⟨remaining - 1, by omega⟩
        rw [ih (attempt + 1) (some e) (by omega)
          (fun i hi1 hi2 => hall i hi1 (by omega))]
        simp only [Nat.add_sub_cancel, List.range'_succ, List.map_cons]
      · rename_i hge
        have hrem : remaining = 0 := by omega
        subst hrem
        simp [retryGo]

/-- C5 (counterexample): the claim that the retry waits follow an
exponential backoff of the form base × 2^attempt is false.  With
`maxRetries = 4` and a recognition engine that always rejects, the waits
performed by `performOCRWithRetry` are `[1000, 2000, 3000]` (the source
waits `1000 * attempt` — linear backoff); no base fits
`[b·2^k, b·2^(k+1), b·2^(k+2)]`, since consecutive exponential waits must
double but 3000 ≠ 2·2000. -/
theorem performOCRWithRetry_backoff_cex :
    (performOCRWithRetry (fun _ => .error "boom".data) 4).2 = [1000, 2000, 3000] ∧
    ¬∃ b k : Nat, (performOCRWithRetry (fun _ => .error "boom".data) 4).2 =
      [b * 2 ^ k, b * 2 ^ (k + 1), b * 2 ^ (k + 2)] := by
  have h : (performOCRWithRetry (fun _ => .error "boom".data) 4).2 =
      [1000, 2000, 3000] := by decide
  refine ⟨h, ?_⟩
  rintro ⟨b, k, hk⟩
  rw [h] at hk
  injection hk with e1 hk1
  injection hk1 with e2 hk2
  injection hk2 with e3 _
  have e4 : (3000 : ℕ) = (b * 2 ^ (k + 1)) * 2 := by
    rw [e3, pow_succ]
    ring
  rw [← e2] at e4
  norm_num at e4

/-- C5 (amended): on failed attempts `performOCRWithRetry` waits with
**linear** backoff `1000 ms × attempt` (not base × 2^attempt), retries up to
`maxRetries` attempts (source default 3), and raises a failure exactly when
all `maxRetries` attempts fail — a success on any attempt within the budget
yields a success. -/
theorem performOCRWithRetry_amended
    (attempts : Nat → Except (List Char) (List Char)) (maxRetries : Nat) :
    (exceptIsOk (performOCRWithRetry attempts maxRetries).1 = false ↔
      ∀ i, i ≤ maxRetries → 1 ≤ i →
        exceptIsOk (attemptOutcome attempts i) = false) ∧
    ((∀ i, i ≤ maxRetries → 1 ≤ i →
        exceptIsOk (attemptOutcome attempts i) = false) →
      (performOCRWithRetry attempts maxRetries).2 =
        (List.range' 1 (maxRetries - 1)).map fun a => 1000 * a) := by
  constructor
  · exact retryGo_isOk_iff attempts maxRetries maxRetries 1 none (by omega)
  · intro hall
    exact retryGo_delays attempts maxRetries maxRetries 1 none (by omega) hall

/-- Witness for `performOCRWithRetry_amended` with `maxRetries = 3` and an
always-failing engine: the operation fails and the waits are
`[1000, 2000]`. -/
theorem performOCRWithRetry_amended_witness :
    exceptIsOk (performOCRWithRetry (fun _ => .error "x".data) 3).1 = false ∧
    (performOCRWithRetry (fun _ => .error "x".data) 3).2 =
      (List.range' 1 (3 - 1)).map fun a => 1000 * a :=
  ⟨(performOCRWithRetry_amended (fun _ => .error "x".data) 3).1.mpr (by decide),
    (performOCRWithRetry_amended (fun _ => .error "x".data) 3).2 (by decide)⟩

end OCRP10

namespace OCRP10

theorem chunksOf3Go_flatten {α : Type} :
    ∀ (fuel : Nat) (l : List α), l.length ≤ fuel →
      (chunksOf3Go fuel l).flatten = l := by
  intro fuel
  induction fuel with
  | zero =>
    intro l hl
    have h0 : l = [] := List.length_eq_zero.mp (by omega)
    subst h0
    rfl
  | succ fuel ih =>
    intro l hl
    simp only [chunksOf3Go]
    split
    · rename_i he
      rw [List.isEmpty_iff.mp he]
      rfl
    · simp only [List.flatten_cons]
      rw [ih (l.drop 3) (by simp; omega)]
      exact List.take_append_drop 3 l

theorem chunksOf3_flatten {α : Type} (l : List α) :
    (chunksOf3 l).flatten = l :=
  chunksOf3Go_flatten l.length l (le_refl _)

theorem allGroup_isOk_iff :
    ∀ g : List (Except (List Char) PageRes),
      exceptIsOk (allGroup g) = true ↔ ∀ p ∈ g, exceptIsOk p = true := by
  intro g
  induction g with
  | nil => simp [allGroup, exceptIsOk]
  | cons p rest ih =>
    cases p with
    | error e =>
      constructor
      · intro h
        simp [allGroup, exceptIsOk] at h
      · intro h
        have := h (.error e) (by simp)
        simp [exceptIsOk] at this
    | ok r =>
      cases hrest : allGroup rest with
      | error e =>
        have hred : allGroup (Except.ok r :: rest) = .error e := by
          simp [allGroup, hrest]
        rw [hred]
        constructor
        · intro h
          simp [exceptIsOk] at h
        · intro h
          exfalso
          rw [hrest] at ih
          have h2 := ih.mpr fun q hq => h q (List.mem_cons_of_mem _ hq)
          simp [exceptIsOk] at h2
      | ok rs =>
        have hred : allGroup (Except.ok r :: rest) = .ok (r :: rs) := by
          simp [allGroup, hrest]
        rw [hred]
        constructor
        · intro _ q hq
          rcases List.mem_cons.mp hq with h1 | h1
          · subst h1; rfl
          · rw [hrest] at ih
            exact ih.mp rfl q h1
        · intro _; rfl

theorem allGroup_ok_length :
    ∀ (g : List (Except (List Char) PageRes)) (rs : List PageRes),
      allGroup g = .ok rs → rs.length = g.length := by
  intro g
  induction g with
  | nil => intro rs h; cases h; rfl
  | cons p rest ih =>
    intro rs h
    cases p with
    | error e => cases h
    | ok r =>
      simp only [allGroup] at h
      cases hrest : allGroup rest with
      | error e => rw [hrest] at h; cases h
      | ok rs2 =>
        rw [hrest] at h
        cases h
        simp [ih rs2 hrest]

theorem enrichGo_length : ∀ (n : Nat) (rs : List PageRes),
    (enrichGo n rs).length = rs.length := by
  intro n rs
  induction rs generalizing n with
  | nil => rfl
  | cons r rest ih => simp [enrichGo, ih]

theorem gatherGo_isOk_iff :
    ∀ (gs : List (List (Except (List Char) PageRes))) (acc : List PageOut),
      exceptIsOk (gatherGo acc gs) = true ↔
        ∀ g ∈ gs, ∀ p ∈ g, exceptIsOk p = true := by
  intro gs
  induction gs with
  | nil => intro acc; simp [gatherGo, exceptIsOk]
  | cons g gs ih =>
    intro acc
    simp only [gatherGo]
    cases hg : allGroup g with
    | error e =>
      simp only [exceptIsOk]
      constructor
      · intro h; cases h
      · intro h
        have := (allGroup_isOk_iff g).mpr (h g (by simp))
        rw [hg] at this
        cases this
    | ok rs =>
      rw [ih]
      constructor
      · intro h g2 hg2 p hp
        rcases List.mem_cons.mp hg2 with h1 | h1
        · subst h1
          exact (allGroup_isOk_iff g2).mp (by rw [hg]; rfl) p hp
        · exact h g2 h1 p hp
      · intro h g2 hg2 p hp
        exact h g2 (by simp [hg2]) p hp

theorem gatherGo_ok_length :
    ∀ (gs : List (List (Except (List Char) PageRes))) (acc res : List PageOut),
      gatherGo acc gs = .ok res →
      res.length = acc.length + (gs.map List.length).sum := by
  intro gs
  induction gs with
  | nil =>
    intro acc res h
    cases h
    simp
  | cons g gs ih =>
    intro acc res h
    simp only [gatherGo] at h
    cases hg : allGroup g with
    | error e => rw [hg] at h; cases h
    | ok rs =>
      rw [hg] at h
      have := ih _ res h
      rw [List.length_append, enrichGo_length, allGroup_ok_length g rs hg] at this
      simp only [List.map_cons, List.sum_cons]
      omega

/-- C3 (counterexample): the claim that a batch with at least one
successfully processed page completes with a combined result is false.  A
two-page batch whose first page succeeds and whose second page fails (after
its retries) makes `processMultipleImages` reject with the page's error:
the per-page promises are gathered with `Promise.all` and the surrounding
`catch` rethrows, so one failed page aborts the whole batch. -/
theorem processMultipleImages_partial_cex :
    processMultipleImages
      [.ok ⟨"crisp printed text".data, 90, 5⟩,
        .error "recognition failed".data] =
      .error "recognition failed".data := by
  rfl

/-- C3 (amended): `processMultipleImages` returns a combined result exactly
when **every** page succeeds (any page failure after retries aborts the
whole batch with that failure; failed pages are not recorded), and the
combined result reports `pageCount` equal to the number of pages. -/
theorem processMultipleImages_amended (pages : List (Except (List Char) PageRes)) :
    (exceptIsOk (processMultipleImages pages) = true ↔
      ∀ p ∈ pages, exceptIsOk p = true) ∧
    ∀ m, processMultipleImages pages = .ok m → m.pageCount = pages.length := by
  have hmem : ∀ (P : Except (List Char) PageRes → Prop),
      (∀ g ∈ chunksOf3 pages, ∀ p ∈ g, P p) ↔ ∀ p ∈ pages, P p := by
    intro P
    constructor
    · intro h p hp
      rw [← chunksOf3_flatten pages] at hp
      rcases List.mem_flatten.mp hp with ⟨g, hg, hpg⟩
      exact h g hg p hpg
    · intro h g hg p hpg
      apply h
      rw [← chunksOf3_flatten pages]
      exact List.mem_flatten.mpr ⟨g, hg, hpg⟩
  unfold processMultipleImages
  cases hg : gatherGo [] (chunksOf3 pages) with
  | error e =>
    constructor
    · simp only [exceptIsOk]
      constructor
      · intro h; cases h
      · intro h
        have := (gatherGo_isOk_iff (chunksOf3 pages) []).mpr
          ((hmem fun p => exceptIsOk p = true).mpr h)
        rw [hg] at this
        cases this
    · intro m hm; cases hm
  | ok results =>
    constructor
    · simp only [exceptIsOk]
      constructor
      · intro _
        exact (hmem fun p => exceptIsOk p = true).mp
          ((gatherGo_isOk_iff (chunksOf3 pages) []).mp (by rw [hg]; rfl))
      · intro _; trivial
    · intro m hm
      cases hm
      show results.length = pages.length
      have hlen := gatherGo_ok_length (chunksOf3 pages) [] results hg
      have hflat : ((chunksOf3 pages).map List.length).sum = pages.length := by
        rw [← List.length_flatten, chunksOf3_flatten]
      simp only [List.length_nil] at hlen
      omega

/-- Witness for `processMultipleImages_amended`: a one-page batch whose page
succeeds is accepted. -/
theorem processMultipleImages_amended_witness :
    exceptIsOk (processMultipleImages
      [.ok ⟨"some page text here".data, 80, 3⟩]) = true :=
  (processMultipleImages_amended [.ok ⟨"some page text here".data, 80, 3⟩]).1.mpr
    (by decide)

end OCRP10

namespace FileProc

theorem addWarning_isValid (msg : List Char) (cond : Bool) (v : ValidationResult) :
    (addWarning msg cond v).isValid = v.isValid := by
  unfold addWarning
  split <;> rfl

theorem addWarning_errors (msg : List Char) (cond : Bool) (v : ValidationResult) :
    (addWarning msg cond v).errors = v.errors := by
  unfold addWarning
  split <;> rfl

/-- C4: whenever the magic-number signature check fails for the declared
MIME type, `validateFile` reports `isValid = false` with a non-empty error
list — regardless of the file's size, extension, MIME type or name, since
the checks accumulate rather than short-circuit. -/
theorem validateFile_magic_fail (maxFileSize : Nat) (file : JFile)
    (h : validateMagicNumbers file.bytes file.mimetype = false) :
    (validateFile maxFileSize file).isValid = false ∧
      (validateFile maxFileSize file).errors ≠ [] := by
  unfold validateFile
  rw [h]
  constructor
  · rw [addWarning_isValid, addWarning_isValid]
    simp [addError]
  · rw [addWarning_errors, addWarning_errors]
    simp [addError]

/-- Witness for `validateFile_magic_fail`: a 5000-byte upload declared
`image/png` whose bytes begin with the `%PDF` signature.  Its size,
extension, MIME type and name all pass their own checks, yet validation
fails with a signature error. -/
theorem validateFile_magic_fail_witness :
    validateMagicNumbers [0x25, 0x50, 0x44, 0x46] "image/png".data = false ∧
      (validateFile 10485760
        ⟨"doc.png".data, 5000, "image/png".data,
          [0x25, 0x50, 0x44, 0x46]⟩).isValid = false :=
  ⟨by decide,
    (validateFile_magic_fail 10485760
      ⟨"doc.png".data, 5000, "image/png".data, [0x25, 0x50, 0x44, 0x46]⟩
      (by decide)).1⟩

end FileProc

namespace Gemini

theorem dedupGo_sublist :
    ∀ (seen : List (List Char)) (l : List GSuggestion),
      List.Sublist (dedupGo seen l) l := by
  intro seen l
  induction l generalizing seen with
  | nil => simp [dedupGo]
  | cons s rest ih =>
    simp only [dedupGo]
    split
    · exact (ih seen).trans (List.sublist_cons_self s rest)
    · exact (ih _).cons₂ s

theorem dedupGo_key_not_seen :
    ∀ (seen : List (List Char)) (l : List GSuggestion) (t : GSuggestion),
      t ∈ dedupGo seen l → suggestionKey t ∉ seen := by
  intro seen l
  induction l generalizing seen with
  | nil => intro t ht; simp [dedupGo] at ht
  | cons s rest ih =>
    intro t ht
    simp only [dedupGo] at ht
    split at ht
    · exact ih seen t ht
    · rcases List.mem_cons.mp ht with h1 | h1
      · subst h1
        rename_i hnot
        exact hnot
      · have := ih _ t h1
        intro hmem
        exact this (by simp [hmem])

theorem dedupGo_pairwise :
    ∀ (seen : List (List Char)) (l : List GSuggestion),
      (dedupGo seen l).Pairwise
        (fun a b => suggestionKey a ≠ suggestionKey b) := by
  intro seen l
  induction l generalizing seen with
  | nil => simp [dedupGo]
  | cons s rest ih =>
    simp only [dedupGo]
    split
    · exact ih seen
    · refine List.Pairwise.cons ?_ (ih _)
      intro t ht hkey
      have := dedupGo_key_not_seen _ _ t ht
      exact this (by simp [hkey])

theorem dedupGo_cover :
    ∀ (seen : List (List Char)) (l : List GSuggestion) (s : GSuggestion),
      s ∈ l →
      suggestionKey s ∈ seen ∨
        ∃ t ∈ dedupGo seen l, suggestionKey t = suggestionKey s := by
  intro seen l
  induction l generalizing seen with
  | nil => intro s hs; simp at hs
  | cons u rest ih =>
    intro s hs
    simp only [dedupGo]
    rcases List.mem_cons.mp hs with h1 | h1
    · subst h1
      split
      · rename_i hseen
        exact Or.inl hseen
      · exact Or.inr ⟨s, by simp, rfl⟩
    · split
      · exact ih seen s h1
      · rename_i hnot
        rcases ih (suggestionKey u :: seen) s h1 with h2 | h2
        · rcases List.mem_cons.mp h2 with h3 | h3
          · exact Or.inr ⟨u, by simp, h3.symm⟩
          · exact Or.inl h3
        · rcases h2 with ⟨t, ht, hkey⟩
          exact Or.inr ⟨t, by simp [ht], hkey⟩

theorem dedupGo_find :
    ∀ (seen : List (List Char)) (l : List GSuggestion) (t : GSuggestion),
      t ∈ dedupGo seen l →
      l.find? (fun u => suggestionKey u == suggestionKey t) = some t := by
  intro seen l
  induction l generalizing seen with
  | nil => intro t ht; simp [dedupGo] at ht
  | cons s rest ih =>
    intro t ht
    simp only [dedupGo] at ht
    split at ht
    · rename_i hseen
      have hne : suggestionKey s ≠ suggestionKey t := by
        intro he
        exact dedupGo_key_not_seen seen rest t ht (he ▸ hseen)
      rw [List.find?_cons_of_neg _ (by simp [hne])]
      exact ih seen t ht
    · rename_i hnot
      rcases List.mem_cons.mp ht with h1 | h1
      · subst h1
        rw [List.find?_cons_of_pos _ (by simp)]
      · have hts := dedupGo_key_not_seen _ _ t h1
        have hne : suggestionKey s ≠ suggestionKey t := by
          intro he
          exact hts (by simp [he])
        rw [List.find?_cons_of_neg _ (by simp [hne])]
        exact ih _ t h1

/-- C9 (counterexample): the claim that the deduplication key is the *pair*
(category, first-50-characters-of-content) is false.  The source key is the
single string `category + '-' + prefix`, which conflates distinct pairs
when the category contains a dash: the suggestions (category `a`, content
`b-x`) and (category `a-b`, content `x`) have different pairs, yet the
second is removed because both concatenated keys are `a-b-x`. -/
theorem deduplicateSuggestions_pair_key_cex :
    deduplicateSuggestions
      [⟨"a".data, "medium".data, "b-x".data, []⟩,
        ⟨"a-b".data, "medium".data, "x".data, []⟩] =
      [⟨"a".data, "medium".data, "b-x".data, []⟩] ∧
    ("a".data, "b-x".data.take 50) ≠ ("a-b".data, "x".data.take 50) := by
  decide

/-- C9 (amended): deduplication removes every suggestion whose
**concatenated** key `category + '-' + first-50-characters` collides with an
earlier suggestion's key (which can conflate distinct (category, prefix)
pairs when a category contains a dash): the output is an order-preserving
sublist, no two kept suggestions share a key, every input key is
represented, and each kept suggestion is the first input occurrence of its
key. -/
theorem deduplicateSuggestions_amended (l : List GSuggestion) :
    List.Sublist (deduplicateSuggestions l) l ∧
    (deduplicateSuggestions l).Pairwise
      (fun a b => suggestionKey a ≠ suggestionKey b) ∧
    (∀ s ∈ l, ∃ t ∈ deduplicateSuggestions l,
      suggestionKey t = suggestionKey s) ∧
    ∀ t ∈ deduplicateSuggestions l,
      l.find? (fun u => suggestionKey u == suggestionKey t) = some t := by
  refine ⟨dedupGo_sublist [] l, dedupGo_pairwise [] l, ?_, dedupGo_find [] l⟩
  intro s hs
  rcases dedupGo_cover [] l s hs with h | h
  · simp at h
  · exact h

/-- Witness for `deduplicateSuggestions_amended`: on the two-element list of
the counterexample the kept representative of the shared key is the first
occurrence. -/
theorem deduplicateSuggestions_amended_witness :
    ∃ t ∈ deduplicateSuggestions
      [⟨"a".data, "medium".data, "b-x".data, []⟩,
        ⟨"a-b".data, "medium".data, "x".data, []⟩],
      suggestionKey t =
        suggestionKey ⟨"a-b".data, "medium".data, "x".data, []⟩ :=
  (deduplicateSuggestions_amended
    [⟨"a".data, "medium".data, "b-x".data, []⟩,
      ⟨"a-b".data, "medium".data, "x".data, []⟩]).2.2.1
    ⟨"a-b".data, "medium".data, "x".data, []⟩ (by decide)

theorem filter_buildChunkAnalyses_length
    (oracle : Nat → Except (List Char) ParsedAnalysis) :
    ∀ (cs : List (List Char)) (i : Nat),
      ((buildChunkAnalyses oracle i cs).filter fun a => a.error.isNone).length =
        okCountFrom oracle i cs := by
  intro cs
  induction cs with
  | nil => intro i; rfl
  | cons c cs ih =>
    intro i
    simp only [buildChunkAnalyses, okCountFrom]
    cases ho : oracle i with
    | ok r =>
      simp [List.filter_cons, exceptIsOk, ih (i + 1)]
      omega
    | error e => simp [List.filter_cons, exceptIsOk, ih (i + 1)]

/-- C6 (counterexample): the claim that `analyzeText` fails with an
`AnalysisFailure` when every per-chunk analysis fails is false.  With two
chunks whose analyses both reject, the multi-chunk path returns a
`success: true` result carrying the fixed fallback text and no suggestions —
`combineChunkAnalyses` returns a plain value and the outer `catch` never
fires. -/
theorem analyzeTextMulti_allfail_cex :
    analyzeTextMulti ["abcd".data, "efgh".data]
      (fun _ => .error "API error".data) =
      ⟨unableMsg, [], true⟩ := by
  rfl

/-- C6 (amended): the multi-chunk `analyzeText` path always reports
`success = true`; when every chunk analysis fails it completes with the
fixed fallback analysis and no suggestions (it does not fail); when at
least one chunk succeeds, synthesis proceeds over the successful subset and
the analysis header reports the number of **successful** sections — the
failure count is not reported. -/
theorem analyzeTextMulti_amended (chunks : List (List Char))
    (oracle : Nat → Except (List Char) ParsedAnalysis) :
    (analyzeTextMulti chunks oracle).success = true ∧
    (okCountFrom oracle 0 chunks = 0 →
      analyzeTextMulti chunks oracle = ⟨unableMsg, [], true⟩) ∧
    (0 < okCountFrom oracle 0 chunks →
      ∃ rest, (analyzeTextMulti chunks oracle).analysis =
        "Document Analysis (".data ++
          (Nat.repr (okCountFrom oracle 0 chunks)).data ++
          " sections):\n\n".data ++ rest) := by
  have hlen := filter_buildChunkAnalyses_length oracle chunks 0
  refine ⟨rfl, ?_, ?_⟩
  · intro h0
    unfold analyzeTextMulti combineChunkAnalyses
    rw [hlen, if_pos h0]
  · intro hpos
    unfold analyzeTextMulti combineChunkAnalyses
    rw [hlen, if_neg (by omega)]
    refine ⟨List.intercalate "\n\n".data
      (sectionLabels 0 ((buildChunkAnalyses oracle 0 chunks).filter
        fun a => a.error.isNone)), ?_⟩
    simp only [hlen, List.append_assoc]

/-- Witness for `analyzeTextMulti_amended`: one failing and one succeeding
chunk — the result is a success and its header reports 1 section. -/
theorem analyzeTextMulti_amended_witness :
    ∃ rest,
      (analyzeTextMulti ["abcd".data, "efgh".data]
        (fun i => if i = 1 then
          .ok ⟨"fine work".data, []⟩ else .error "API error".data)).analysis =
        "Document Analysis (".data ++
          (Nat.repr (okCountFrom
            (fun i => if i = 1 then
              .ok ⟨"fine work".data, []⟩ else .error "API error".data)
            0 ["abcd".data, "efgh".data])).data ++
          " sections):\n\n".data ++ rest :=
  (analyzeTextMulti_amended ["abcd".data, "efgh".data]
    (fun i => if i = 1 then
      .ok ⟨"fine work".data, []⟩ else .error "API error".data)).2.2
    (by decide)

end Gemini

/-- C8: for every language-model response — plain prose, malformed JSON,
the empty string, or valid JSON — the response-parsing operations return a
structured result and never propagate a parse exception: `parseAIResponse`
always yields a record with an `analysis` value and a `suggestions` list,
`parseJSONResponse` always yields a value, and a missing or empty response
degrades to the safe empty-result object (whose `summary` is the fixed
error marker and which carries no suggestions). -/
theorem response_parsing_total :
    (∀ s : List Char, ∃ r : AIProc.AIParsed, AIProc.parseAIResponse s = .ok r) ∧
    (∀ c : Option (List Char),
      ∃ v : JsValue, OpenAIProc.parseJSONResponse c = .ok v) ∧
    OpenAIProc.parseJSONResponse none = .ok OpenAIProc.getEmptyResponse ∧
    OpenAIProc.parseJSONResponse (some []) = .ok OpenAIProc.getEmptyResponse := by
  refine ⟨?_, ?_, rfl, rfl⟩
  · intro s
    unfold AIProc.parseAIResponse
    cases h : jsonParse s with
    | error e => exact ⟨_, rfl⟩
    | ok v => cases v <;> exact ⟨_, rfl⟩
  · intro c
    unfold OpenAIProc.parseJSONResponse
    cases c with
    | none => exact ⟨_, rfl⟩
    | some c =>
      dsimp only
      cases hc : c.isEmpty with
      | true => exact ⟨_, rfl⟩
      | false =>
        cases h : jsonParse c with
        | error e => exact ⟨_, rfl⟩
        | ok v => cases v <;> exact ⟨_, rfl⟩

end AnswerLense
